import Mathlib

/-!
# Verification of the parallel matching engine (`ParallelMatchingEngine.hpp`)

This file gives a shallow embedding of the concurrent scheduling core of the
vf3-parallel subgraph matching engine and proves the specification claims
about it.

The engine explores a tree of partial-matching states.  The search-state
type (`VFState` in the C++) is an external, opaque capability; here it is a
type parameter `S` together with a record `StateOps` of its operations
(`IsGoal`, `IsDead`, `NextPair`, `IsFeasiblePair`, `AddPair`, `GetCoreSet`).

The sequential body of `ProcessState` (lines 108-143 of the header) is
embedded as a function producing a return value and an ordered list of
observable events (counter increment, solution append, visitor call,
frontier push).  The concurrent part (`Run`, `GetState`, `PutState`,
`StartPool`, `FindAllMatchings`) is embedded as a labeled small-step
transition system over a configuration holding the shared frontier stack,
the two counters, the solution log and one program counter per worker; each
step corresponds to one critical section or one lock-free atomic access of
the C++ code.
-/

namespace VFLib

/-- Node identifiers (`nodeID_t` in `ARGraph.hpp`). -/
abbrev nodeID_t := Nat

/-- Modelled from the spec: `NULL_NODE` is the sentinel node id used to start
the candidate-pair cursor ("a sentinel for start", spec section 6); it lives in
the external graph header `ARGraph.hpp`, which is not part of this core.  Its
concrete value is irrelevant to the engine. -/
def NULL_NODE : nodeID_t := 4294967295

/-- A candidate pair of nodes `(n1, n2)`. -/
abbrev Pair := nodeID_t × nodeID_t

/-- The initial cursor position `n1 = NULL_NODE, n2 = NULL_NODE`
(line 131 of the header). -/
def startPair : Pair := (NULL_NODE, NULL_NODE)

/-- The external state contract consumed by the engine (spec section 6).
`NextPair s p` is the cursor `s->NextPair(&n1, &n2, n1, n2)`: given the
previously returned pair `p` it yields the next untried candidate pair, or
`none` at exhaustion.  `AddPair s q` is deep copy followed by
`AddPair` (`new VFState(*s)` then `s1->AddPair(n1, n2)`), which on values is a
pure function. -/
structure StateOps (S : Type) (Sol : Type) where
  IsGoal : S → Bool
  IsDead : S → Bool
  NextPair : S → Pair → Option Pair
  IsFeasiblePair : S → Pair → Bool
  AddPair : S → Pair → S
  GetCoreSet : S → Sol

/-- Modelled from the spec: the construction-time configuration inherited from
the base class `MatchingEngine` (header `MatchingEngine.hpp`, not part of this
core): the `storeSolutions` persistence flag and the optional
`MatchingVisitor` callback `visit`, a callable taking the state and returning
a boolean (spec section 6). -/
structure EngineCfg (S : Type) (Sol : Type) where
  storeSolutions : Bool
  visit : Option (S → Bool)

/-- Observable events emitted by one execution of `ProcessState`, in program
order: the atomic `solCount++`, the locked `solutions.push_back`, the visitor
invocation (with the boolean it returned), and each `PutState` of a child. -/
inductive Event (S : Type) (Sol : Type) where
  | incCount : Event S Sol
  | appendSol (sol : Sol) : Event S Sol
  | visitCall (s : S) (r : Bool) : Event S Sol
  | push (c : S) : Event S Sol

variable {S Sol : Type}

/-- The list of candidate pairs produced by running the cursor from position
`p` until exhaustion, with explicit fuel; `none` means the fuel did not
suffice (a non-terminating cursor is a documented precondition violation,
spec section 4.2). -/
def cursorList (ops : StateOps S Sol) (s : S) : Nat → Pair → Option (List Pair)
  | 0, p =>
    match ops.NextPair s p with
    | none => some []
    | some _ => none
  | fuel + 1, p =>
    match ops.NextPair s p with
    | none => some []
    | some q => (cursorList ops s fuel q).map (fun l => q :: l)

/-- The expansion loop of `ProcessState` (lines 131-140):
`while (s->NextPair(&n1,&n2,n1,n2)) { if (s->IsFeasiblePair(n1,n2)) {
VFState* s1 = new VFState(*s); s1->AddPair(n1,n2); PutState(s1); } }`,
threading the previously returned pair back into the cursor and emitting a
push event for each feasible pair. -/
def expandLoop (ops : StateOps S Sol) (s : S) : Nat → Pair → Option (List (Event S Sol))
  | 0, p =>
    match ops.NextPair s p with
    | none => some []
    | some _ => none
  | fuel + 1, p =>
    match ops.NextPair s p with
    | none => some []
    | some q =>
      (expandLoop ops s fuel q).map (fun evs =>
        (if ops.IsFeasiblePair s q then [Event.push (ops.AddPair s q)] else []) ++ evs)

/-- The value returned by `ProcessState` on a goal state (lines 121-125):
the visitor's boolean result if a visitor is configured, otherwise `true`. -/
def goalResult (ec : EngineCfg S Sol) (s : S) : Bool :=
  match ec.visit with
  | some v => v s
  | none => true

/-- The events emitted by `ProcessState` on a goal state, in program order
(lines 110-126): `solCount++`; if `storeSolutions`, extract and append a
solution snapshot under the solutions lock; if a visitor is configured,
invoke it. -/
def goalEvents (ec : EngineCfg S Sol) (ops : StateOps S Sol) (s : S) : List (Event S Sol) :=
  Event.incCount ::
    ((if ec.storeSolutions then [Event.appendSol (ops.GetCoreSet s)] else []) ++
      (match ec.visit with
       | some v => [Event.visitCall s (v s)]
       | none => []))

/-- Sequential embedding of `ProcessState` (lines 108-143): returns the
boolean result together with the ordered list of observable events, or `none`
if the cursor fuel runs out. -/
def ProcessState (ec : EngineCfg S Sol) (ops : StateOps S Sol) (s : S) (fuel : Nat) :
    Option (Bool × List (Event S Sol)) :=
  if ops.IsGoal s then
    some (goalResult ec s, goalEvents ec ops s)
  else if ops.IsDead s then
    some (false, [])
  else
    (expandLoop ops s fuel startPair).map (fun evs => (false, evs))

/-- The child states pushed by an event list, in push order. -/
def pushesOf (evs : List (Event S Sol)) : List S :=
  evs.filterMap (fun e =>
    match e with
    | Event.push c => some c
    | _ => none)

/-- The solution snapshots appended by an event list, in order. -/
def solsOf (evs : List (Event S Sol)) : List Sol :=
  evs.filterMap (fun e =>
    match e with
    | Event.appendSol sol => some sol
    | _ => none)

/-- The visitor invocations performed by an event list: visited state and
returned boolean, in order. -/
def visitsOf (evs : List (Event S Sol)) : List (S × Bool) :=
  evs.filterMap (fun e =>
    match e with
    | Event.visitCall s r => some (s, r)
    | _ => none)

/-- The number of `solCount++` increments in an event list. -/
def incsOf (evs : List (Event S Sol)) : Nat :=
  evs.countP (fun e =>
    match e with
    | Event.incCount => true
    | _ => false)

/-!
## The concurrent machine

One worker executes `Run` (lines 93-106):
```
VFState* s = NULL;
do {
  if (s) { ProcessState(s); delete s; activeWorkerCount--; }
  s = GetState();
} while (s || activeWorkerCount > 0);
```
Its control point is one of the following.  States owned by a worker carry
the unique allocation id they received when they were pushed, so that
uniqueness of dispatch can be stated. -/
inductive WPc (S : Type) where
  /-- About to call `GetState()` (line 104). -/
  | toPop : WPc S
  /-- `GetState()` returned `NULL`; about to evaluate the loop condition,
  which now reads `activeWorkerCount` (line 105). -/
  | gotNone : WPc S
  /-- `GetState()` returned a state; the loop condition was true via `s`,
  and the worker is about to run the branch tests at the top of
  `ProcessState` (lines 110 and 128). -/
  | gotState (id : Nat) (s : S) : WPc S
  /-- Inside the goal branch, about to execute `solCount++` (line 113). -/
  | atInc (id : Nat) (s : S) : WPc S
  /-- Inside the goal branch, about to append the solution snapshot under
  the solutions lock (lines 116-119). -/
  | atAppend (id : Nat) (s : S) : WPc S
  /-- Inside the goal branch, about to invoke the visitor (if any) and
  return (lines 121-125). -/
  | atVisit (id : Nat) (s : S) : WPc S
  /-- Inside the expansion loop `while (s->NextPair(...))` with previous
  cursor position `prev` (lines 131-140). -/
  | expanding (id : Nat) (s : S) (prev : Pair) : WPc S
  /-- `ProcessState` returned `ret` and `delete s` was executed; about to
  execute `activeWorkerCount--` (line 102). -/
  | toDecr (ret : Bool) : WPc S
  /-- The loop condition failed; the worker has exited `Run`. -/
  | exited : WPc S

/-- A global configuration of the engine: the lock-protected LIFO frontier
`globalStateStack` (head is the top; entries carry their allocation id), the
`activeWorkerCount` counter, the solution counter, the persisted `solutions`
log, one control point per worker, the next fresh allocation id, and two
ghost histories recording which ids were ever popped and ever deleted.

`solCount` records the exact number of `solCount++` operations executed so
far (line 113).  The source stores the counter in a `std::atomic<uint32_t>`
(line 42), whose cell therefore holds this number reduced modulo `2^32` by
unsigned wrap-around; the reduction is applied by `GetSolutionsCount`, the
only place the cell is read, so the pair (exact count here, wrap at the
read) is observably the same machine. -/
structure Config (S : Type) (Sol : Type) where
  globalStateStack : List (Nat × S)
  activeWorkerCount : Int
  solCount : Nat
  solutions : List Sol
  workers : List (WPc S)
  nextId : Nat
  poppedIds : List Nat
  deletedIds : List Nat

/-- `2^32`, the modulus of the `uint32_t` solution counter (line 42). -/
def UINT32_MOD : Nat := 4294967296

/-- `GetSolutionsCount()` (line 64) reads the atomic `uint32_t` solution
counter cell and widens it to `size_t`: the value returned is the number of
increments executed, reduced modulo `2^32` by unsigned wrap-around. -/
def GetSolutionsCount (c : Config S Sol) : Nat := c.solCount % UINT32_MOD

/-- `GetThreadCount()` (line 82) returns the size of the worker pool. -/
def GetThreadCount (c : Config S Sol) : Nat := c.workers.length

/-- Step labels, naming the critical section or atomic access performed. -/
inductive Act (S : Type) where
  /-- `GetState()` succeeded: popped the state with this id (lines 156-161). -/
  | popOk (id : Nat) (s : S) : Act S
  /-- `GetState()` found the stack empty and returned `NULL`. -/
  | popFail : Act S
  /-- Loop condition read `activeWorkerCount > 0` and looped again. -/
  | loopSpin : Act S
  /-- Loop condition read `activeWorkerCount <= 0` with `s == NULL`:
  the worker exits. -/
  | loopExit : Act S
  /-- `IsGoal()` returned true (line 110). -/
  | branchGoal : Act S
  /-- `IsGoal()` false, `IsDead()` true: `ProcessState` returns false
  (lines 128-129) and the worker deletes the state. -/
  | branchDead : Act S
  /-- `IsGoal()` false, `IsDead()` false: enter the expansion loop. -/
  | branchExpand : Act S
  /-- The atomic `solCount++` (line 113). -/
  | incCount : Act S
  /-- The locked `solutions.push_back` (lines 116-119). -/
  | appendSol : Act S
  /-- The goal branch returns `r` (visitor result, or `true` without a
  visitor); the worker deletes the state. -/
  | visitRet (r : Bool) : Act S
  /-- One iteration of the expansion loop: `NextPair` yielded `q`, the pair
  was feasible, and `PutState` pushed the extended copy. -/
  | cursorPush (q : Pair) : Act S
  /-- One iteration of the expansion loop: `NextPair` yielded `q`, the pair
  was infeasible, nothing was pushed. -/
  | cursorSkip (q : Pair) : Act S
  /-- `NextPair` reported exhaustion: `ProcessState` returns false and the
  worker deletes the state. -/
  | cursorDone : Act S
  /-- The lock-free `activeWorkerCount--` (line 102). -/
  | decr : Act S

/-- Labeled small-step transition relation of the worker pool: worker `i`
performs action `a`.  Each constructor is one critical section or one atomic
access of the C++ code; shared data is touched exactly as the corresponding
source line touches it. -/
inductive Step (ec : EngineCfg S Sol) (ops : StateOps S Sol) :
    Nat → Act S → Config S Sol → Config S Sol → Prop where
  /-- `GetState` (lines 152-163), non-empty case: under the frontier lock,
  remove the top of the stack and increment `activeWorkerCount` in the same
  critical section. -/
  | popOk (c : Config S Sol) (i : Nat) (id : Nat) (s : S) (rest : List (Nat × S)) :
      c.workers.get? i = some WPc.toPop →
      c.globalStateStack = (id, s) :: rest →
      Step ec ops i (Act.popOk id s) c
        { c with
          globalStateStack := rest
          activeWorkerCount := c.activeWorkerCount + 1
          poppedIds := c.poppedIds ++ [id]
          workers := c.workers.set i (WPc.gotState id s) }
  /-- `GetState`, empty case: return `NULL` without touching the counter. -/
  | popFail (c : Config S Sol) (i : Nat) :
      c.workers.get? i = some WPc.toPop →
      c.globalStateStack = [] →
      Step ec ops i Act.popFail c
        { c with workers := c.workers.set i WPc.gotNone }
  /-- Loop condition with `s == NULL`: `activeWorkerCount > 0`, loop again. -/
  | loopSpin (c : Config S Sol) (i : Nat) :
      c.workers.get? i = some WPc.gotNone →
      0 < c.activeWorkerCount →
      Step ec ops i Act.loopSpin c
        { c with workers := c.workers.set i WPc.toPop }
  /-- Loop condition with `s == NULL`: `activeWorkerCount <= 0`, exit. -/
  | loopExit (c : Config S Sol) (i : Nat) :
      c.workers.get? i = some WPc.gotNone →
      c.activeWorkerCount ≤ 0 →
      Step ec ops i Act.loopExit c
        { c with workers := c.workers.set i WPc.exited }
  /-- `s->IsGoal()` true (line 110). -/
  | branchGoal (c : Config S Sol) (i : Nat) (id : Nat) (s : S) :
      c.workers.get? i = some (WPc.gotState id s) →
      ops.IsGoal s = true →
      Step ec ops i Act.branchGoal c
        { c with workers := c.workers.set i (WPc.atInc id s) }
  /-- `s->IsGoal()` false, `s->IsDead()` true (line 128): `ProcessState`
  returns `false`, the worker executes `delete s`. -/
  | branchDead (c : Config S Sol) (i : Nat) (id : Nat) (s : S) :
      c.workers.get? i = some (WPc.gotState id s) →
      ops.IsGoal s = false →
      ops.IsDead s = true →
      Step ec ops i Act.branchDead c
        { c with
          workers := c.workers.set i (WPc.toDecr false)
          deletedIds := c.deletedIds ++ [id] }
  /-- `s->IsGoal()` false, `s->IsDead()` false: enter the expansion loop at
  the start sentinel (line 131). -/
  | branchExpand (c : Config S Sol) (i : Nat) (id : Nat) (s : S) :
      c.workers.get? i = some (WPc.gotState id s) →
      ops.IsGoal s = false →
      ops.IsDead s = false →
      Step ec ops i Act.branchExpand c
        { c with workers := c.workers.set i (WPc.expanding id s startPair) }
  /-- The atomic `solCount++` (line 113); control then moves to the
  `storeSolutions` block or past it. -/
  | incCount (c : Config S Sol) (i : Nat) (id : Nat) (s : S) :
      c.workers.get? i = some (WPc.atInc id s) →
      Step ec ops i Act.incCount c
        { c with
          solCount := c.solCount + 1
          workers := c.workers.set i
            (if ec.storeSolutions then WPc.atAppend id s else WPc.atVisit id s) }
  /-- Under the solutions lock, extract the core set and append it
  (lines 116-119). -/
  | appendSol (c : Config S Sol) (i : Nat) (id : Nat) (s : S) :
      c.workers.get? i = some (WPc.atAppend id s) →
      Step ec ops i Act.appendSol c
        { c with
          solutions := c.solutions ++ [ops.GetCoreSet s]
          workers := c.workers.set i (WPc.atVisit id s) }
  /-- Invoke the visitor if configured and return its result, else return
  `true` (lines 121-125); the worker then executes `delete s` (line 101). -/
  | visitRet (c : Config S Sol) (i : Nat) (id : Nat) (s : S) :
      c.workers.get? i = some (WPc.atVisit id s) →
      Step ec ops i (Act.visitRet (goalResult ec s)) c
        { c with
          workers := c.workers.set i (WPc.toDecr (goalResult ec s))
          deletedIds := c.deletedIds ++ [id] }
  /-- One iteration of the expansion loop with a feasible pair: deep-copy,
  `AddPair`, and `PutState` under the frontier lock (lines 134-139); the new
  state receives the next fresh allocation id. -/
  | cursorPush (c : Config S Sol) (i : Nat) (id : Nat) (s : S) (prev q : Pair) :
      c.workers.get? i = some (WPc.expanding id s prev) →
      ops.NextPair s prev = some q →
      ops.IsFeasiblePair s q = true →
      Step ec ops i (Act.cursorPush q) c
        { c with
          globalStateStack := (c.nextId, ops.AddPair s q) :: c.globalStateStack
          nextId := c.nextId + 1
          workers := c.workers.set i (WPc.expanding id s q) }
  /-- One iteration of the expansion loop with an infeasible pair: nothing
  is pushed. -/
  | cursorSkip (c : Config S Sol) (i : Nat) (id : Nat) (s : S) (prev q : Pair) :
      c.workers.get? i = some (WPc.expanding id s prev) →
      ops.NextPair s prev = some q →
      ops.IsFeasiblePair s q = false →
      Step ec ops i (Act.cursorSkip q) c
        { c with workers := c.workers.set i (WPc.expanding id s q) }
  /-- The cursor reports exhaustion: `ProcessState` returns `false`
  (line 141), the worker executes `delete s` (line 101). -/
  | cursorDone (c : Config S Sol) (i : Nat) (id : Nat) (s : S) (prev : Pair) :
      c.workers.get? i = some (WPc.expanding id s prev) →
      ops.NextPair s prev = none →
      Step ec ops i Act.cursorDone c
        { c with
          workers := c.workers.set i (WPc.toDecr false)
          deletedIds := c.deletedIds ++ [id] }
  /-- The lock-free `activeWorkerCount--` (line 102), executed only after
  `ProcessState` returned and the state was deleted; the returned boolean
  `ret` is discarded. -/
  | decr (c : Config S Sol) (i : Nat) (ret : Bool) :
      c.workers.get? i = some (WPc.toDecr ret) →
      Step ec ops i Act.decr c
        { c with
          activeWorkerCount := c.activeWorkerCount - 1
          workers := c.workers.set i WPc.toPop }

/-- Some worker performs some step. -/
def StepAny (ec : EngineCfg S Sol) (ops : StateOps S Sol) (c c' : Config S Sol) : Prop :=
  ∃ i a, Step ec ops i a c c'

/-- Reachability in the concurrent machine. -/
def Reach (ec : EngineCfg S Sol) (ops : StateOps S Sol) : Config S Sol → Config S Sol → Prop :=
  Relation.ReflTransGen (StepAny ec ops)

/-- All workers have exited `Run`; at this point every `th.join()` in
`FindAllMatchings` (lines 72-76) returns. -/
def Terminal (c : Config S Sol) : Prop := ∀ w ∈ c.workers, w = WPc.exited

/-- The configuration produced by `FindAllMatchings` (lines 66-80) just
after `StartPool`: the root state has been fully processed on the calling
thread (its children seeded the frontier in push order, with fresh ids
`1, 2, ...`; the stack top is the last child pushed), and exactly
`numThreads` workers have been spawned, none of which has run yet.  The root
is caller-owned and receives no allocation id; it is not deleted
(line 68 has no `delete`). -/
def initConfig (ec : EngineCfg S Sol) (ops : StateOps S Sol) (root : S)
    (numThreads : Nat) (fuel : Nat) : Option (Config S Sol) :=
  (ProcessState ec ops root fuel).map (fun pr =>
    { globalStateStack :=
        ((List.range' 1 (pushesOf pr.2).length).zip (pushesOf pr.2)).reverse
      activeWorkerCount := 0
      solCount := incsOf pr.2
      solutions := solsOf pr.2
      workers := List.replicate numThreads WPc.toPop
      nextId := (pushesOf pr.2).length + 1
      poppedIds := []
      deletedIds := [] })

/-- `FindAllMatchings` (lines 66-80): process the root on the calling
thread, start the pool, join all workers, and return `true` unconditionally
(line 79).  The model returns the post-`StartPool` configuration together
with the eventual return value. -/
def FindAllMatchings (ec : EngineCfg S Sol) (ops : StateOps S Sol) (root : S)
    (numThreads : Nat) (fuel : Nat) : Option (Config S Sol × Bool) :=
  (initConfig ec ops root numThreads fuel).map (fun c => (c, true))

/-- An infinite run of the machine: at every instant either some worker
steps, or the configuration is terminal and stutters. -/
def ValidRun (ec : EngineCfg S Sol) (ops : StateOps S Sol) (run : Nat → Config S Sol) : Prop :=
  ∀ n, StepAny ec ops (run n) (run (n + 1)) ∨ (Terminal (run n) ∧ run (n + 1) = run n)

/-- Worker `i` takes the step at instant `n`. -/
def StepsAt (ec : EngineCfg S Sol) (ops : StateOps S Sol) (run : Nat → Config S Sol)
    (i n : Nat) : Prop :=
  ∃ a, Step ec ops i a (run n) (run (n + 1))

/-- Weak fairness: every worker of the pool is, at every instant, eventually
either observed exited or scheduled for a step.  (True parallel threads on a
real scheduler satisfy this; without it a spinning worker could be starved
forever.) -/
def FairRun (ec : EngineCfg S Sol) (ops : StateOps S Sol) (run : Nat → Config S Sol) : Prop :=
  ∀ i, i < (run 0).workers.length → ∀ n, ∃ m, n ≤ m ∧
    ((run m).workers.get? i = some (WPc.exited) ∨ StepsAt ec ops run i m)

/-!
## Finiteness of the expansion tree

The State contract requires the cursor to terminate and demands that the
tree of children be finite (spec sections 4.2 and 8).  This is rendered as a
rank function on states that strictly decreases from a state to each of its
children, together with a uniform cursor fuel. -/

/-- A witness that every expansion tree over these state operations is
finite: `fuel s` bounds the number of cursor iterations of `s` from any
position, and the rank `sz` strictly decreases on every feasible child of a
live (non-goal, non-dead) state. -/
structure FiniteExpansion (ops : StateOps S Sol) where
  sz : S → Nat
  fuel : S → Nat
  cursor_ok : ∀ s p, (cursorList ops s (fuel s) p).isSome = true
  child_lt : ∀ s q, ops.IsGoal s = false → ops.IsDead s = false →
    q ∈ (cursorList ops s (fuel s) startPair).getD [] →
    ops.IsFeasiblePair s q = true →
    sz (ops.AddPair s q) < sz s

/-- The pairs the cursor of `s` still yields from position `p` onward. -/
def restPairs (ops : StateOps S Sol) (fe : FiniteExpansion ops) (s : S) (p : Pair) :
    List Pair :=
  (cursorList ops s (fe.fuel s) p).getD []

/-- Number of goal states in the expansion tree rooted at `s`: a goal state
counts itself; a dead state contributes nothing; a live state accumulates
over its feasible children. -/
def GW (ops : StateOps S Sol) (fe : FiniteExpansion ops) (s : S) : Nat :=
  if _hg : ops.IsGoal s then 1
  else if _hd : ops.IsDead s then 0
  else
    (((restPairs ops fe s startPair).filter
        (fun q => ops.IsFeasiblePair s q)).attach.map
      (fun q => GW ops fe (ops.AddPair s q.1))).sum
termination_by fe.sz s
decreasing_by
  have hq := q.2
  rw [List.mem_filter] at hq
  exact fe.child_lt s q.1 (by simpa using _hg) (by simpa using _hd) hq.1 hq.2

/-- Weight of the expansion tree rooted at `s` for the global termination
measure: enough budget for every loop iteration, push, pop and bookkeeping
step that the subtree will ever cause. -/
def F (ops : StateOps S Sol) (fe : FiniteExpansion ops) (s : S) : Nat :=
  if _hg : ops.IsGoal s then 9
  else if _hd : ops.IsDead s then 9
  else
    ((restPairs ops fe s startPair).attach.map
      (fun q =>
        1 + (if _hq : ops.IsFeasiblePair s q.1 then F ops fe (ops.AddPair s q.1) else 0))).sum
      + 8
termination_by fe.sz s
decreasing_by
  exact fe.child_lt s q.1 (by simpa using _hg) (by simpa using _hd) q.2 _hq

/-- Remaining budget of a worker sitting in the expansion loop of state `s`
at cursor position `p`: one unit per remaining iteration plus the weight of
each child still to be pushed, plus the loop-exit and decrement steps. -/
def eW (ops : StateOps S Sol) (fe : FiniteExpansion ops) (s : S) (p : Pair) : Nat :=
  ((restPairs ops fe s p).map
    (fun q => 1 + (if ops.IsFeasiblePair s q then F ops fe (ops.AddPair s q) else 0))).sum + 2

/-- Remaining budget of a worker control point. -/
def wWeight (ops : StateOps S Sol) (fe : FiniteExpansion ops) : WPc S → Nat
  | WPc.toPop => 0
  | WPc.gotNone => 0
  | WPc.exited => 0
  | WPc.gotState _ s => F ops fe s - 1
  | WPc.atInc _ _ => 4
  | WPc.atAppend _ _ => 3
  | WPc.atVisit _ _ => 2
  | WPc.expanding _ s p => eW ops fe s p
  | WPc.toDecr _ => 1

/-- Global termination measure: total weight of the frontier plus the
remaining budget of every worker.  Every step leaves it unchanged or
decreases it, and every step of a worker that holds a popped state strictly
decreases it. -/
def phi (ops : StateOps S Sol) (fe : FiniteExpansion ops) (c : Config S Sol) : Nat :=
  (c.globalStateStack.map (fun x => F ops fe x.2)).sum +
    (c.workers.map (wWeight ops fe)).sum

/-- A worker holds a popped state ("active credit") from the successful pop
until its `activeWorkerCount--`. -/
def isCredit : WPc S → Bool
  | WPc.toPop => false
  | WPc.gotNone => false
  | WPc.exited => false
  | WPc.gotState _ _ => true
  | WPc.atInc _ _ => true
  | WPc.atAppend _ _ => true
  | WPc.atVisit _ _ => true
  | WPc.expanding _ _ _ => true
  | WPc.toDecr _ => true

/-- Number of workers currently holding active credit. -/
def creditCount (c : Config S Sol) : Nat :=
  (c.workers.map (fun w => if isCredit w then 1 else 0)).sum

/-- A worker is engaged if it holds credit or is about to pop again.  A
worker disengages only by a failed pop, which requires an empty frontier. -/
def isEngaged : WPc S → Bool
  | WPc.toPop => true
  | WPc.gotNone => false
  | WPc.exited => false
  | w => isCredit w

/-- The allocation id of the state a worker currently owns, if any. -/
def heldId : WPc S → Option Nat
  | WPc.gotState id _ => some id
  | WPc.atInc id _ => some id
  | WPc.atAppend id _ => some id
  | WPc.atVisit id _ => some id
  | WPc.expanding id _ _ => some id
  | _ => none

/-- The allocation ids currently stored in the frontier. -/
def frontierIds (c : Config S Sol) : List Nat :=
  c.globalStateStack.map Prod.fst

/-- Structural invariant of every reachable configuration: the counter
equals the number of credit holders (hence is never negative); all engine
allocation ids are positive, fresh below `nextId`, and pairwise distinct
between the frontier and the pop history; every state owned by a worker was
popped; only popped states are ever deleted; and a worker sits in the
expansion loop only for a live state. -/
structure Inv (ops : StateOps S Sol) (c : Config S Sol) : Prop where
  active_eq : c.activeWorkerCount = (creditCount c : Int)
  ids_bounded : ∀ id ∈ frontierIds c ++ c.poppedIds, 1 ≤ id ∧ id < c.nextId
  one_le_nextId : 1 ≤ c.nextId
  ids_nodup : (frontierIds c ++ c.poppedIds).Nodup
  held_popped : ∀ i w, c.workers.get? i = some w → ∀ id, heldId w = some id →
    id ∈ c.poppedIds
  deleted_popped : c.deletedIds ⊆ c.poppedIds
  expanding_live : ∀ i id s p, c.workers.get? i = some (WPc.expanding id s p) →
    ops.IsGoal s = false ∧ ops.IsDead s = false

/-- If the frontier is non-empty then some worker is engaged.  This is the
invariant that makes the exhaustion check sound: the frontier cannot outlive
all workers. -/
def EngagedInv (c : Config S Sol) : Prop :=
  c.globalStateStack ≠ [] → ∃ i w, c.workers.get? i = some w ∧ isEngaged w = true

/-- Goal states still to be discovered from a worker's control point. -/
def wGW (ops : StateOps S Sol) (fe : FiniteExpansion ops) : WPc S → Nat
  | WPc.gotState _ s => GW ops fe s
  | WPc.atInc _ _ => 1
  | WPc.expanding _ s p =>
      (((restPairs ops fe s p).filter (fun q => ops.IsFeasiblePair s q)).map
        (fun q => GW ops fe (ops.AddPair s q))).sum
  | _ => 0

/-- Goal states still to be discovered anywhere in the system: in frontier
subtrees or in the states workers currently process.  `solCount` plus this
quantity is constant across every step, which makes the final count
schedule- and thread-count-independent. -/
def pendingGW (ops : StateOps S Sol) (fe : FiniteExpansion ops) (c : Config S Sol) : Nat :=
  (c.globalStateStack.map (fun x => GW ops fe x.2)).sum +
    (c.workers.map (wGW ops fe)).sum

/-- Number of workers that have incremented `solCount` for a goal state but
not yet appended the corresponding snapshot to the solution log. -/
def pendingAppends (c : Config S Sol) : Nat :=
  (c.workers.map (fun w =>
    match w with
    | WPc.atAppend _ _ => 1
    | _ => 0)).sum

/-!
## Concrete instances

A small concrete state contract used to exercise the theorems: state `2` is
dead, state `0` is live with exactly one candidate pair `(0, 0)` which is
feasible and extends to state `1`, and state `1` is a goal. -/

/-- Concrete state operations over `Nat` states and `Nat` solutions. -/
def wops : StateOps Nat Nat where
  IsGoal := fun s => s == 1
  IsDead := fun s => s == 2
  NextPair := fun s p => if s == 0 && p == startPair then some (0, 0) else none
  IsFeasiblePair := fun _ _ => true
  AddPair := fun _ _ => 1
  GetCoreSet := fun s => s

/-- Engine configuration with solution persistence on and no visitor. -/
def wec : EngineCfg Nat Nat where
  storeSolutions := true
  visit := none

/-- Engine configuration with persistence on and a visitor returning
`false`. -/
def wecV : EngineCfg Nat Nat where
  storeSolutions := true
  visit := some (fun _ => false)

/-- Finite-expansion witness for `wops`. -/
def wfe : FiniteExpansion wops where
  sz := fun s => if s == 0 then 1 else 0
  fuel := fun _ => 1
  cursor_ok := by
    intro s p
    by_cases hs : s = 0
    · subst hs
      by_cases hp : p = startPair
      · subst hp
        decide
      · simp [cursorList, wops, hp]
    · simp [cursorList, wops, hs]
  child_lt := by
    intro s q _hg _hd hmem hf
    by_cases hs : s = 0
    · subst hs
      simp [wops]
    · exfalso
      simp [restPairs, cursorList, wops, hs] at hmem

/-- Scenario A: the root state `2` is immediately dead; one worker.
Configuration after `FindAllMatchings` processed the root and spawned the
pool. -/
def a0 : Config Nat Nat :=
  { globalStateStack := []
    activeWorkerCount := 0
    solCount := 0
    solutions := []
    workers := [WPc.toPop]
    nextId := 1
    poppedIds := []
    deletedIds := [] }

/-- Scenario A after the worker's failed pop. -/
def a1 : Config Nat Nat := { a0 with workers := [WPc.gotNone] }

/-- Scenario A after the worker observed `activeWorkerCount = 0` and exited. -/
def a2 : Config Nat Nat := { a0 with workers := [WPc.exited] }

/-- The full (eventually stuttering) run of scenario A. -/
def deadRun : Nat → Config Nat Nat :=
  fun m => if m = 0 then a0 else if m = 1 then a1 else a2

/-- Scenario B: root `0` with the single goal child `1`; one worker.
Initial configuration: the root was processed on the calling thread and its
child was pushed with fresh id `1`. -/
def b0 : Config Nat Nat :=
  { globalStateStack := [(1, 1)]
    activeWorkerCount := 0
    solCount := 0
    solutions := []
    workers := [WPc.toPop]
    nextId := 2
    poppedIds := []
    deletedIds := [] }

/-- Scenario B after the worker popped the child (counter incremented in the
same critical section). -/
def b1 : Config Nat Nat :=
  { b0 with
    globalStateStack := []
    activeWorkerCount := 1
    poppedIds := [1]
    workers := [WPc.gotState 1 1] }

/-- Scenario B: `IsGoal` returned true. -/
def b2 : Config Nat Nat := { b1 with workers := [WPc.atInc 1 1] }

/-- Scenario B: `solCount++` done. -/
def b3 : Config Nat Nat := { b2 with solCount := 1, workers := [WPc.atAppend 1 1] }

/-- Scenario B: snapshot appended to the solution log. -/
def b4 : Config Nat Nat := { b3 with solutions := [1], workers := [WPc.atVisit 1 1] }

/-- Scenario B: goal branch returned `true` (no visitor), state deleted. -/
def b5 : Config Nat Nat :=
  { b4 with workers := [WPc.toDecr true], deletedIds := [1] }

/-- Scenario B: `activeWorkerCount--` done. -/
def b6 : Config Nat Nat := { b5 with activeWorkerCount := 0, workers := [WPc.toPop] }

/-- Scenario B: second pop failed. -/
def b7 : Config Nat Nat := { b6 with workers := [WPc.gotNone] }

/-- Scenario B: worker observed zero active workers and exited. -/
def b8 : Config Nat Nat := { b7 with workers := [WPc.exited] }

/-- Scenario C: same search as scenario B but with two workers; worker 0
does all the work and worker 1 only spins down at the end.  Initial
configuration. -/
def p0 : Config Nat Nat := { b0 with workers := [WPc.toPop, WPc.toPop] }

/-- Scenario C, worker 0 popped the child. -/
def p1 : Config Nat Nat :=
  { p0 with
    globalStateStack := []
    activeWorkerCount := 1
    poppedIds := [1]
    workers := [WPc.gotState 1 1, WPc.toPop] }

/-- Scenario C, goal branch taken. -/
def p2 : Config Nat Nat := { p1 with workers := [WPc.atInc 1 1, WPc.toPop] }

/-- Scenario C, counter incremented. -/
def p3 : Config Nat Nat :=
  { p2 with solCount := 1, workers := [WPc.atAppend 1 1, WPc.toPop] }

/-- Scenario C, snapshot appended. -/
def p4 : Config Nat Nat :=
  { p3 with solutions := [1], workers := [WPc.atVisit 1 1, WPc.toPop] }

/-- Scenario C, goal branch returned, state deleted. -/
def p5 : Config Nat Nat :=
  { p4 with workers := [WPc.toDecr true, WPc.toPop], deletedIds := [1] }

/-- Scenario C, worker 0 decremented the counter. -/
def p6 : Config Nat Nat :=
  { p5 with activeWorkerCount := 0, workers := [WPc.toPop, WPc.toPop] }

/-- Scenario C, worker 0 pop failed. -/
def p7 : Config Nat Nat := { p6 with workers := [WPc.gotNone, WPc.toPop] }

/-- Scenario C, worker 0 exited. -/
def p8 : Config Nat Nat := { p7 with workers := [WPc.exited, WPc.toPop] }

/-- Scenario C, worker 1 pop failed. -/
def p9 : Config Nat Nat := { p8 with workers := [WPc.exited, WPc.gotNone] }

/-- Scenario C, worker 1 exited: terminal. -/
def p10 : Config Nat Nat := { p9 with workers := [WPc.exited, WPc.exited] }

/-- The push events emitted for a list of candidate pairs: one push of the
extended copy for each feasible pair, in cursor order. -/
def pushEvts (ops : StateOps S Sol) (s : S) (ps : List Pair) : List (Event S Sol) :=
  (ps.filter (fun q => ops.IsFeasiblePair s q)).map (fun q => Event.push (ops.AddPair s q))

/-!
## Scenario D: counter wrap-around

A state contract whose live root `0` has exactly `2^32` feasible goal
children: the cursor yields the candidate pairs
`(0,0), (1,0), ..., (2^32-1, 0)` and every extension is the goal state `1`.
A single worker drains the frontier; each child adds one snapshot to the log
and one increment to the `uint32_t` counter, which wraps to `0` on the last
child. -/

/-- State contract of the wrap-around scenario. -/
def cexOps : StateOps Nat Nat where
  IsGoal := fun s => s == 1
  IsDead := fun _ => false
  NextPair := fun s p =>
    if s == 0 then
      if p == startPair then some (0, 0)
      else if p.2 == 0 && decide (p.1 + 1 < UINT32_MOD) then some (p.1 + 1, 0)
      else none
    else none
  IsFeasiblePair := fun _ _ => true
  AddPair := fun _ _ => 1
  GetCoreSet := fun s => s

/-- The candidate pairs `(j,0), (j+1,0), ...` — `m` of them. -/
def cexPairs (j m : Nat) : List Pair := (List.range' j m).map (fun i => (i, 0))

/-- A frontier holding goal children with allocation ids `j, j-1, ..., 1`
(top first; the last-pushed child is on top). -/
def cexStack (j : Nat) : List (Nat × Nat) :=
  (List.range' 1 j).reverse.map (fun i => (i, 1))

/-- The id history after the `m` children with ids `2^32, 2^32 - 1, ...,
2^32 - m + 1` were handled, most recent last. -/
def cexPopped (m : Nat) : List Nat :=
  (List.range' 0 m).map (fun i => UINT32_MOD - i)

/-- The wrap-around run after the single worker has fully processed `m`
children (in id order `2^32, 2^32 - 1, ...`) and is back at its pop site. -/
def cexCfg (m : Nat) : Config Nat Nat :=
  { globalStateStack := cexStack (UINT32_MOD - m)
    activeWorkerCount := 0
    solCount := m
    solutions := List.replicate m 1
    workers := [WPc.toPop]
    nextId := UINT32_MOD + 1
    poppedIds := cexPopped m
    deletedIds := cexPopped m }

/-- Wrap-around run, processing the child with id `2^32 - m`: popped. -/
def cexA (m : Nat) : Config Nat Nat :=
  { globalStateStack := cexStack (UINT32_MOD - m - 1)
    activeWorkerCount := 1
    solCount := m
    solutions := List.replicate m 1
    workers := [WPc.gotState (UINT32_MOD - m) 1]
    nextId := UINT32_MOD + 1
    poppedIds := cexPopped (m + 1)
    deletedIds := cexPopped m }

/-- Wrap-around run: goal branch taken. -/
def cexB (m : Nat) : Config Nat Nat :=
  { cexA m with workers := [WPc.atInc (UINT32_MOD - m) 1] }

/-- Wrap-around run: `solCount++` done. -/
def cexC (m : Nat) : Config Nat Nat :=
  { cexB m with solCount := m + 1, workers := [WPc.atAppend (UINT32_MOD - m) 1] }

/-- Wrap-around run: snapshot appended to the log. -/
def cexD (m : Nat) : Config Nat Nat :=
  { cexC m with
    solutions := List.replicate (m + 1) 1
    workers := [WPc.atVisit (UINT32_MOD - m) 1] }

/-- Wrap-around run: goal branch returned `true`, child deleted. -/
def cexE (m : Nat) : Config Nat Nat :=
  { cexD m with
    workers := [WPc.toDecr true]
    deletedIds := cexPopped (m + 1) }

/-- Wrap-around run: all `2^32` children processed and the final pop failed
on the empty frontier. -/
def cexMid : Config Nat Nat := { cexCfg UINT32_MOD with workers := [WPc.gotNone] }

/-- Wrap-around run: terminal configuration, all `2^32` children processed,
the worker has observed the empty frontier and the zero active count and
exited. -/
def cexFinal : Config Nat Nat := { cexCfg UINT32_MOD with workers := [WPc.exited] }

/-!
## Helper lemmas
-/

theorem map_sum_set {α : Type} (f : α → Nat) (l : List α) (i : Nat) (a b : α)
    (h : l.get? i = some b) :
    f b + ((l.set i a).map f).sum = f a + (l.map f).sum := by
  induction l generalizing i with
  | nil => simp at h
  | cons x xs ih =>
    cases i with
    | zero =>
      simp only [List.get?] at h
      cases h
      simp [List.set]
      omega
    | succ j =>
      simp only [List.get?] at h
      have := ih j h
      simp only [List.set, List.map, List.sum_cons]
      omega

theorem get?_set_self {α : Type} (l : List α) (i : Nat) (a : α) (h : i < l.length) :
    (l.set i a).get? i = some a := by
  rw [List.get?_eq_getElem?]
  exact List.getElem?_set_self h

theorem get?_set_ne {α : Type} (l : List α) (i j : Nat) (a : α) (h : i ≠ j) :
    (l.set i a).get? j = l.get? j := by
  induction l generalizing i j with
  | nil => simp
  | cons x xs ih =>
    cases i with
    | zero =>
      cases j with
      | zero => exact absurd rfl h
      | succ j' => simp [List.set]
    | succ i' =>
      cases j with
      | zero => simp [List.set]
      | succ j' =>
        simp only [List.set, List.get?]
        exact ih i' j' (fun he => h (by rw [he]))

theorem attach_map_eq {α β : Type} (l : List α) (f : α → β) :
    l.attach.map (fun x => f x.1) = l.map f :=
  List.attach_map_val l f

/-!
### Cursor lemmas
-/

theorem cursorList_mono {ops : StateOps S Sol} {s : S} :
    ∀ {fuel fuel' : Nat} {p : Pair} {l : List Pair},
      cursorList ops s fuel p = some l → fuel ≤ fuel' →
      cursorList ops s fuel' p = some l := by
  intro fuel
  induction fuel with
  | zero =>
    intro fuel' p l h _
    cases hnp : ops.NextPair s p with
    | none =>
      simp only [cursorList, hnp] at h
      cases h
      cases fuel' <;> simp [cursorList, hnp]
    | some q =>
      simp only [cursorList, hnp] at h
      exact Option.noConfusion h
  | succ f ih =>
    intro fuel' p l h hle
    cases hnp : ops.NextPair s p with
    | none =>
      simp only [cursorList, hnp] at h
      cases h
      cases fuel' <;> simp [cursorList, hnp]
    | some q =>
      simp only [cursorList, hnp] at h
      cases ht : cursorList ops s f q with
      | none => rw [ht] at h; cases h
      | some t =>
        rw [ht] at h
        simp only [Option.map_some', Option.some.injEq] at h
        cases fuel' with
        | zero => omega
        | succ f' =>
          have hmq : cursorList ops s f' q = some t := ih ht (by omega)
          simp [cursorList, hnp, hmq, h]

theorem cursorList_unique {ops : StateOps S Sol} {s : S} {f f' : Nat} {p : Pair}
    {l l' : List Pair} (h : cursorList ops s f p = some l)
    (h' : cursorList ops s f' p = some l') : l = l' := by
  have h1 : cursorList ops s (max f f') p = some l := cursorList_mono h (le_max_left _ _)
  have h2 : cursorList ops s (max f f') p = some l' := cursorList_mono h' (le_max_right _ _)
  rw [h1] at h2
  cases h2
  rfl

theorem restPairs_nil {ops : StateOps S Sol} (fe : FiniteExpansion ops) {s : S} {p : Pair}
    (h : ops.NextPair s p = none) : restPairs ops fe s p = [] := by
  unfold restPairs
  cases hf : fe.fuel s <;> simp [cursorList, h]

theorem restPairs_cons {ops : StateOps S Sol} (fe : FiniteExpansion ops) {s : S} {p q : Pair}
    (h : ops.NextPair s p = some q) :
    restPairs ops fe s p = q :: restPairs ops fe s q := by
  have hok := fe.cursor_ok s p
  rw [Option.isSome_iff_exists] at hok
  obtain ⟨l, hl⟩ := hok
  cases hf : fe.fuel s with
  | zero =>
    rw [hf] at hl
    simp only [cursorList, h] at hl
    exact Option.noConfusion hl
  | succ f =>
    rw [hf] at hl
    simp only [cursorList, h] at hl
    cases ht : cursorList ops s f q with
    | none => rw [ht] at hl; cases hl
    | some t =>
      rw [ht] at hl
      simp only [Option.map_some', Option.some.injEq] at hl
      have ht' : cursorList ops s (fe.fuel s) q = some t :=
        cursorList_mono ht (by omega)
      rw [hf] at ht'
      unfold restPairs
      rw [hf, ht']
      simp [cursorList, h, ht]

theorem expandLoop_eq (ops : StateOps S Sol) (s : S) :
    ∀ (fuel : Nat) (p : Pair),
      expandLoop ops s fuel p = (cursorList ops s fuel p).map (pushEvts ops s) := by
  intro fuel
  induction fuel with
  | zero =>
    intro p
    cases hnp : ops.NextPair s p <;> simp [expandLoop, cursorList, hnp, pushEvts]
  | succ f ih =>
    intro p
    cases hnp : ops.NextPair s p with
    | none => simp [expandLoop, cursorList, hnp, pushEvts]
    | some q =>
      simp only [expandLoop, cursorList, hnp, ih q]
      cases ht : cursorList ops s f q with
      | none => rfl
      | some t =>
        simp only [Option.map_some']
        congr 1
        unfold pushEvts
        rw [List.filter_cons]
        cases hfe : ops.IsFeasiblePair s q <;> simp [hfe]

/-!
### Equations for the counting and measure functions
-/

theorem GW_goal {ops : StateOps S Sol} (fe : FiniteExpansion ops) {s : S}
    (hg : ops.IsGoal s = true) : GW ops fe s = 1 := by
  rw [GW]
  simp [hg]

theorem GW_dead {ops : StateOps S Sol} (fe : FiniteExpansion ops) {s : S}
    (hg : ops.IsGoal s = false) (hd : ops.IsDead s = true) : GW ops fe s = 0 := by
  rw [GW]
  simp [hg, hd]

theorem GW_live {ops : StateOps S Sol} (fe : FiniteExpansion ops) {s : S}
    (hg : ops.IsGoal s = false) (hd : ops.IsDead s = false) :
    GW ops fe s =
      (((restPairs ops fe s startPair).filter (fun q => ops.IsFeasiblePair s q)).map
        (fun q => GW ops fe (ops.AddPair s q))).sum := by
  rw [GW]
  simp only [hg, hd, Bool.false_eq_true, dite_false]
  rw [attach_map_eq _ (fun q => GW ops fe (ops.AddPair s q))]

theorem F_goal {ops : StateOps S Sol} (fe : FiniteExpansion ops) {s : S}
    (hg : ops.IsGoal s = true) : F ops fe s = 9 := by
  rw [F]
  simp [hg]

theorem F_dead {ops : StateOps S Sol} (fe : FiniteExpansion ops) {s : S}
    (hg : ops.IsGoal s = false) (hd : ops.IsDead s = true) : F ops fe s = 9 := by
  rw [F]
  simp [hg, hd]

theorem F_live {ops : StateOps S Sol} (fe : FiniteExpansion ops) {s : S}
    (hg : ops.IsGoal s = false) (hd : ops.IsDead s = false) :
    F ops fe s =
      ((restPairs ops fe s startPair).map
        (fun q => 1 + (if ops.IsFeasiblePair s q then F ops fe (ops.AddPair s q) else 0))).sum
        + 8 := by
  rw [F]
  simp only [hg, hd, Bool.false_eq_true, dite_false]
  congr 1
  rw [attach_map_eq _
    (fun q => 1 + (if _hq : ops.IsFeasiblePair s q then F ops fe (ops.AddPair s q) else 0))]
  simp [dite_eq_ite]

/-- Remaining budget in the expansion loop, step equation at a cursor hit. -/
theorem eW_cons {ops : StateOps S Sol} (fe : FiniteExpansion ops) {s : S} {p q : Pair}
    (h : ops.NextPair s p = some q) :
    eW ops fe s p =
      1 + (if ops.IsFeasiblePair s q then F ops fe (ops.AddPair s q) else 0)
        + eW ops fe s q := by
  unfold eW
  rw [restPairs_cons fe h]
  simp [List.sum_cons]
  omega

theorem eW_none {ops : StateOps S Sol} (fe : FiniteExpansion ops) {s : S} {p : Pair}
    (h : ops.NextPair s p = none) : eW ops fe s p = 2 := by
  unfold eW
  rw [restPairs_nil fe h]
  simp

theorem F_live_eW {ops : StateOps S Sol} (fe : FiniteExpansion ops) {s : S}
    (hg : ops.IsGoal s = false) (hd : ops.IsDead s = false) :
    F ops fe s = eW ops fe s startPair + 6 := by
  rw [F_live fe hg hd]
  unfold eW
  omega

theorem F_pos {ops : StateOps S Sol} (fe : FiniteExpansion ops) (s : S) :
    8 ≤ F ops fe s := by
  cases hg : ops.IsGoal s with
  | true => rw [F_goal fe hg]; omega
  | false =>
    cases hd : ops.IsDead s with
    | true => rw [F_dead fe hg hd]; omega
    | false => rw [F_live fe hg hd]; omega

/-- Pending-goal weight in the expansion loop, step equation at a cursor hit. -/
theorem eGW_cons {ops : StateOps S Sol} (fe : FiniteExpansion ops) {s : S} {p q : Pair}
    (h : ops.NextPair s p = some q) :
    (((restPairs ops fe s p).filter (fun x => ops.IsFeasiblePair s x)).map
      (fun x => GW ops fe (ops.AddPair s x))).sum =
    (if ops.IsFeasiblePair s q then GW ops fe (ops.AddPair s q) else 0) +
      (((restPairs ops fe s q).filter (fun x => ops.IsFeasiblePair s x)).map
        (fun x => GW ops fe (ops.AddPair s x))).sum := by
  rw [restPairs_cons fe h, List.filter_cons]
  cases hfe : ops.IsFeasiblePair s q <;> simp [hfe]

theorem eGW_none {ops : StateOps S Sol} (fe : FiniteExpansion ops) {s : S} {p : Pair}
    (h : ops.NextPair s p = none) :
    (((restPairs ops fe s p).filter (fun x => ops.IsFeasiblePair s x)).map
      (fun x => GW ops fe (ops.AddPair s x))).sum = 0 := by
  rw [restPairs_nil fe h]
  rfl

/-!
### Structural facts about steps
-/

theorem Step.workers_set {ec : EngineCfg S Sol} {ops : StateOps S Sol} {i : Nat} {a : Act S}
    {c c' : Config S Sol} (h : Step ec ops i a c c') :
    ∃ w w', c.workers.get? i = some w ∧ c'.workers = c.workers.set i w' := by
  cases h with
  | popOk c i id s rest h1 h2 => exact ⟨_, _, h1, rfl⟩
  | popFail c i h1 h2 => exact ⟨_, _, h1, rfl⟩
  | loopSpin c i h1 h2 => exact ⟨_, _, h1, rfl⟩
  | loopExit c i h1 h2 => exact ⟨_, _, h1, rfl⟩
  | branchGoal c i id s h1 h2 => exact ⟨_, _, h1, rfl⟩
  | branchDead c i id s h1 h2 h3 => exact ⟨_, _, h1, rfl⟩
  | branchExpand c i id s h1 h2 h3 => exact ⟨_, _, h1, rfl⟩
  | incCount c i id s h1 => exact ⟨_, _, h1, rfl⟩
  | appendSol c i id s h1 => exact ⟨_, _, h1, rfl⟩
  | visitRet c i id s h1 => exact ⟨_, _, h1, rfl⟩
  | cursorPush c i id s prev q h1 h2 h3 => exact ⟨_, _, h1, rfl⟩
  | cursorSkip c i id s prev q h1 h2 h3 => exact ⟨_, _, h1, rfl⟩
  | cursorDone c i id s prev h1 h2 => exact ⟨_, _, h1, rfl⟩
  | decr c i ret h1 => exact ⟨_, _, h1, rfl⟩

theorem Step.length_workers {ec : EngineCfg S Sol} {ops : StateOps S Sol} {i : Nat}
    {a : Act S} {c c' : Config S Sol} (h : Step ec ops i a c c') :
    c'.workers.length = c.workers.length := by
  obtain ⟨w, w', _, hset⟩ := h.workers_set
  rw [hset, List.length_set]

theorem Step.i_lt {ec : EngineCfg S Sol} {ops : StateOps S Sol} {i : Nat} {a : Act S}
    {c c' : Config S Sol} (h : Step ec ops i a c c') : i < c.workers.length := by
  obtain ⟨w, w', hget, _⟩ := h.workers_set
  exact (List.get?_eq_some.mp hget).1

theorem Step.get?_other {ec : EngineCfg S Sol} {ops : StateOps S Sol} {i : Nat} {a : Act S}
    {c c' : Config S Sol} (h : Step ec ops i a c c') (j : Nat) (hij : i ≠ j) :
    c'.workers.get? j = c.workers.get? j := by
  obtain ⟨w, w', _, hset⟩ := h.workers_set
  rw [hset]
  exact get?_set_ne _ _ _ _ hij

theorem Step.not_exited {ec : EngineCfg S Sol} {ops : StateOps S Sol} {i : Nat} {a : Act S}
    {c c' : Config S Sol} (h : Step ec ops i a c c') :
    c.workers.get? i ≠ some WPc.exited := by
  cases h <;> simp_all

theorem exited_stable {ec : EngineCfg S Sol} {ops : StateOps S Sol} {j : Nat} {a : Act S}
    {c c' : Config S Sol} (h : Step ec ops j a c c') (i : Nat)
    (hex : c.workers.get? i = some WPc.exited) :
    c'.workers.get? i = some WPc.exited := by
  by_cases hij : j = i
  · subst hij
    exact absurd hex h.not_exited
  · rw [h.get?_other i hij]
    exact hex

/-!
### Preservation of the structural invariant
-/

/-- Helper: a step that only rewrites worker `i`'s control point (and
possibly `solCount`/`solutions`, which the invariant does not mention),
keeping credit status, not acquiring any new owned state, and appending to
the deletion history only the id the worker owned. -/
theorem Inv.workerStep {ops : StateOps S Sol} {c c' : Config S Sol} {i : Nat}
    {w w' : WPc S} (inv : Inv ops c)
    (hget : c.workers.get? i = some w)
    (hw : c'.workers = c.workers.set i w')
    (hstack : c'.globalStateStack = c.globalStateStack)
    (hact : c'.activeWorkerCount = c.activeWorkerCount)
    (hpop : c'.poppedIds = c.poppedIds)
    (hnext : c'.nextId = c.nextId)
    (hdel : c'.deletedIds = c.deletedIds ∨
      ∃ id0, c'.deletedIds = c.deletedIds ++ [id0] ∧ heldId w = some id0)
    (hcred : isCredit w' = isCredit w)
    (hheld : ∀ id, heldId w' = some id → heldId w = some id)
    (hlive : ∀ id s p, w' = WPc.expanding id s p →
      ops.IsGoal s = false ∧ ops.IsDead s = false) :
    Inv ops c' := by
  have hsum := map_sum_set (fun u => if isCredit u then 1 else 0) c.workers i w' w hget
  have hccount : creditCount c' = creditCount c := by
    unfold creditCount
    rw [hw]
    simp only [hcred] at hsum
    omega
  have hidsame : frontierIds c' ++ c'.poppedIds = frontierIds c ++ c.poppedIds := by
    unfold frontierIds
    rw [hstack, hpop]
  constructor
  · rw [hact, hccount, inv.active_eq]
  · rw [hidsame, hnext]
    exact inv.ids_bounded
  · rw [hnext]
    exact inv.one_le_nextId
  · rw [hidsame]
    exact inv.ids_nodup
  · intro j w2 hj id hid
    rw [hw] at hj
    rw [hpop]
    by_cases hij : i = j
    · subst hij
      rw [get?_set_self _ _ _ (List.get?_eq_some.mp hget).1] at hj
      cases hj
      exact inv.held_popped i w hget id (hheld id hid)
    · rw [get?_set_ne _ _ _ _ hij] at hj
      exact inv.held_popped j w2 hj id hid
  · rw [hpop]
    cases hdel with
    | inl hsame =>
      rw [hsame]
      exact inv.deleted_popped
    | inr hex =>
      obtain ⟨id0, hde, hh0⟩ := hex
      rw [hde]
      intro x hx
      rcases List.mem_append.mp hx with hx | hx
      · exact inv.deleted_popped hx
      · rw [List.mem_singleton] at hx
        subst hx
        exact inv.held_popped i w hget x hh0
  · intro j id s p hj
    rw [hw] at hj
    by_cases hij : i = j
    · subst hij
      rw [get?_set_self _ _ _ (List.get?_eq_some.mp hget).1] at hj
      cases hj
      exact hlive id s p rfl
    · rw [get?_set_ne _ _ _ _ hij] at hj
      exact inv.expanding_live j id s p hj

/-- The structural invariant is preserved by every step. -/
theorem Inv.preserve_step {ec : EngineCfg S Sol} {ops : StateOps S Sol} {i : Nat} {a : Act S}
    {c c' : Config S Sol} (inv : Inv ops c) (h : Step ec ops i a c c') : Inv ops c' := by
  cases h with
  | popOk c i id s rest h1 h2 =>
    have hlt := (List.get?_eq_some.mp h1).1
    have hsum := map_sum_set (fun u => if isCredit u then 1 else 0) c.workers i
      (WPc.gotState id s) WPc.toPop h1
    have hfr : frontierIds c = id :: rest.map Prod.fst := by
      unfold frontierIds
      rw [h2]
      rfl
    have hperm : (rest.map Prod.fst ++ (c.poppedIds ++ [id])).Perm
        (frontierIds c ++ c.poppedIds) := by
      rw [hfr, ← List.append_assoc]
      exact List.perm_append_singleton id (rest.map Prod.fst ++ c.poppedIds)
    constructor
    · show c.activeWorkerCount + 1 = _
      have hcc : creditCount { c with
          globalStateStack := rest
          activeWorkerCount := c.activeWorkerCount + 1
          poppedIds := c.poppedIds ++ [id]
          workers := c.workers.set i (WPc.gotState id s) } =
          ((c.workers.set i (WPc.gotState id s)).map
            (fun u => if isCredit u then 1 else 0)).sum := rfl
      have hae := inv.active_eq
      simp only [creditCount] at hae
      have e1 : isCredit (WPc.toPop : WPc S) = false := rfl
      have e2 : isCredit (WPc.gotState id s) = true := rfl
      simp only [e1, e2, if_true, if_false, Bool.false_eq_true] at hsum
      rw [hcc]
      omega
    · intro x hx
      have hx' : x ∈ frontierIds c ++ c.poppedIds := hperm.mem_iff.mp hx
      exact inv.ids_bounded x hx'
    · exact inv.one_le_nextId
    · exact hperm.symm.nodup inv.ids_nodup
    · intro j w2 hj idh hid
      by_cases hij : i = j
      · subst hij
        rw [show ({ c with
            globalStateStack := rest
            activeWorkerCount := c.activeWorkerCount + 1
            poppedIds := c.poppedIds ++ [id]
            workers := c.workers.set i (WPc.gotState id s) } : Config S Sol).workers =
            c.workers.set i (WPc.gotState id s) from rfl] at hj
        rw [get?_set_self _ _ _ hlt] at hj
        cases hj
        simp only [heldId, Option.some.injEq] at hid
        subst hid
        exact List.mem_append.mpr (Or.inr (List.mem_singleton.mpr rfl))
      · rw [show ({ c with
            globalStateStack := rest
            activeWorkerCount := c.activeWorkerCount + 1
            poppedIds := c.poppedIds ++ [id]
            workers := c.workers.set i (WPc.gotState id s) } : Config S Sol).workers =
            c.workers.set i (WPc.gotState id s) from rfl] at hj
        rw [get?_set_ne _ _ _ _ hij] at hj
        exact List.mem_append.mpr (Or.inl (inv.held_popped j w2 hj idh hid))
    · intro x hx
      exact List.mem_append.mpr (Or.inl (inv.deleted_popped hx))
    · intro j idh sh ph hj
      by_cases hij : i = j
      · subst hij
        rw [show ({ c with
            globalStateStack := rest
            activeWorkerCount := c.activeWorkerCount + 1
            poppedIds := c.poppedIds ++ [id]
            workers := c.workers.set i (WPc.gotState id s) } : Config S Sol).workers =
            c.workers.set i (WPc.gotState id s) from rfl] at hj
        rw [get?_set_self _ _ _ hlt] at hj
        cases hj
      · rw [show ({ c with
            globalStateStack := rest
            activeWorkerCount := c.activeWorkerCount + 1
            poppedIds := c.poppedIds ++ [id]
            workers := c.workers.set i (WPc.gotState id s) } : Config S Sol).workers =
            c.workers.set i (WPc.gotState id s) from rfl] at hj
        rw [get?_set_ne _ _ _ _ hij] at hj
        exact inv.expanding_live j idh sh ph hj
  | popFail c i h1 h2 =>
    exact inv.workerStep h1 rfl rfl rfl rfl rfl (Or.inl rfl) rfl
      (fun id hid => by simp [heldId] at hid) (fun id s p hp => by cases hp)
  | loopSpin c i h1 h2 =>
    exact inv.workerStep h1 rfl rfl rfl rfl rfl (Or.inl rfl) rfl
      (fun id hid => by simp [heldId] at hid) (fun id s p hp => by cases hp)
  | loopExit c i h1 h2 =>
    exact inv.workerStep h1 rfl rfl rfl rfl rfl (Or.inl rfl) rfl
      (fun id hid => by simp [heldId] at hid) (fun id s p hp => by cases hp)
  | branchGoal c i id s h1 h2 =>
    exact inv.workerStep h1 rfl rfl rfl rfl rfl (Or.inl rfl) rfl
      (fun idh hid => hid) (fun idh sh ph hp => by cases hp)
  | branchDead c i id s h1 h2 h3 =>
    exact inv.workerStep h1 rfl rfl rfl rfl rfl
      (Or.inr ⟨id, rfl, rfl⟩) rfl
      (fun idh hid => by simp [heldId] at hid) (fun idh sh ph hp => by cases hp)
  | branchExpand c i id s h1 h2 h3 =>
    exact inv.workerStep h1 rfl rfl rfl rfl rfl (Or.inl rfl) rfl
      (fun idh hid => hid)
      (fun idh sh ph hp => by cases hp; exact ⟨h2, h3⟩)
  | incCount c i id s h1 =>
    refine inv.workerStep h1 rfl rfl rfl rfl rfl (Or.inl rfl) ?_ ?_ ?_
    · cases ec.storeSolutions <;> rfl
    · intro idh hid
      show heldId (WPc.atInc id s) = some idh
      by_cases hst : ec.storeSolutions = true
      · rw [if_pos hst] at hid
        exact hid
      · rw [if_neg hst] at hid
        exact hid
    · intro idh sh ph hp
      by_cases hst : ec.storeSolutions = true
      · rw [if_pos hst] at hp
        cases hp
      · rw [if_neg hst] at hp
        cases hp
  | appendSol c i id s h1 =>
    exact inv.workerStep h1 rfl rfl rfl rfl rfl (Or.inl rfl) rfl
      (fun idh hid => hid) (fun idh sh ph hp => by cases hp)
  | visitRet c i id s h1 =>
    exact inv.workerStep h1 rfl rfl rfl rfl rfl
      (Or.inr ⟨id, rfl, rfl⟩) rfl
      (fun idh hid => by simp [heldId] at hid) (fun idh sh ph hp => by cases hp)
  | cursorPush c i id s prev q h1 h2 h3 =>
    have hlt := (List.get?_eq_some.mp h1).1
    have hnew_notin : c.nextId ∉ frontierIds c ++ c.poppedIds := by
      intro hmem
      exact absurd (inv.ids_bounded c.nextId hmem).2 (lt_irrefl _)
    have hsum := map_sum_set (fun u => if isCredit u then 1 else 0) c.workers i
      (WPc.expanding id s q) (WPc.expanding id s prev) h1
    constructor
    · show c.activeWorkerCount = _
      have hcc : creditCount { c with
          globalStateStack := (c.nextId, ops.AddPair s q) :: c.globalStateStack
          nextId := c.nextId + 1
          workers := c.workers.set i (WPc.expanding id s q) } =
          ((c.workers.set i (WPc.expanding id s q)).map
            (fun u => if isCredit u then 1 else 0)).sum := rfl
      have hae := inv.active_eq
      simp only [creditCount] at hae
      have e1 : isCredit (WPc.expanding id s prev) = true := rfl
      have e2 : isCredit (WPc.expanding id s q) = true := rfl
      simp only [e1, e2, if_true] at hsum
      rw [hcc]
      omega
    · intro x hx
      have hx' : x = c.nextId ∨ x ∈ frontierIds c ++ c.poppedIds := by
        simpa [frontierIds, List.mem_append, List.mem_cons, or_assoc] using hx
      show 1 ≤ x ∧ x < c.nextId + 1
      rcases hx' with hx' | hx'
      · subst hx'
        exact ⟨inv.one_le_nextId, by omega⟩
      · have := inv.ids_bounded x hx'
        exact ⟨this.1, by omega⟩
    · show 1 ≤ c.nextId + 1
      have := inv.one_le_nextId
      omega
    · show ((c.nextId :: frontierIds c) ++ c.poppedIds).Nodup
      rw [List.cons_append, List.nodup_cons]
      exact ⟨hnew_notin, inv.ids_nodup⟩
    · intro j w2 hj idh hid
      by_cases hij : i = j
      · subst hij
        rw [show ({ c with
            globalStateStack := (c.nextId, ops.AddPair s q) :: c.globalStateStack
            nextId := c.nextId + 1
            workers := c.workers.set i (WPc.expanding id s q) } : Config S Sol).workers =
            c.workers.set i (WPc.expanding id s q) from rfl] at hj
        rw [get?_set_self _ _ _ hlt] at hj
        cases hj
        simp only [heldId, Option.some.injEq] at hid
        subst hid
        exact inv.held_popped i _ h1 _ rfl
      · rw [show ({ c with
            globalStateStack := (c.nextId, ops.AddPair s q) :: c.globalStateStack
            nextId := c.nextId + 1
            workers := c.workers.set i (WPc.expanding id s q) } : Config S Sol).workers =
            c.workers.set i (WPc.expanding id s q) from rfl] at hj
        rw [get?_set_ne _ _ _ _ hij] at hj
        exact inv.held_popped j w2 hj idh hid
    · exact inv.deleted_popped
    · intro j idh sh ph hj
      by_cases hij : i = j
      · subst hij
        rw [show ({ c with
            globalStateStack := (c.nextId, ops.AddPair s q) :: c.globalStateStack
            nextId := c.nextId + 1
            workers := c.workers.set i (WPc.expanding id s q) } : Config S Sol).workers =
            c.workers.set i (WPc.expanding id s q) from rfl] at hj
        rw [get?_set_self _ _ _ hlt] at hj
        cases hj
        exact inv.expanding_live i _ _ _ h1
      · rw [show ({ c with
            globalStateStack := (c.nextId, ops.AddPair s q) :: c.globalStateStack
            nextId := c.nextId + 1
            workers := c.workers.set i (WPc.expanding id s q) } : Config S Sol).workers =
            c.workers.set i (WPc.expanding id s q) from rfl] at hj
        rw [get?_set_ne _ _ _ _ hij] at hj
        exact inv.expanding_live j idh sh ph hj
  | cursorSkip c i id s prev q h1 h2 h3 =>
    refine inv.workerStep h1 rfl rfl rfl rfl rfl (Or.inl rfl) rfl
      (fun idh hid => hid) ?_
    intro idh sh ph hp
    cases hp
    exact inv.expanding_live i _ _ _ h1
  | cursorDone c i id s prev h1 h2 =>
    exact inv.workerStep h1 rfl rfl rfl rfl rfl
      (Or.inr ⟨id, rfl, rfl⟩) rfl
      (fun idh hid => by simp [heldId] at hid) (fun idh sh ph hp => by cases hp)
  | decr c i ret h1 =>
    have hsum := map_sum_set (fun u => if isCredit u then 1 else 0) c.workers i
      WPc.toPop (WPc.toDecr ret) h1
    refine ⟨?_, inv.ids_bounded, inv.one_le_nextId, inv.ids_nodup, ?_, inv.deleted_popped, ?_⟩
    · show c.activeWorkerCount - 1 = _
      have hcc : creditCount { c with
          activeWorkerCount := c.activeWorkerCount - 1
          workers := c.workers.set i WPc.toPop } =
          ((c.workers.set i WPc.toPop).map
            (fun u => if isCredit u then 1 else 0)).sum := rfl
      have hae := inv.active_eq
      simp only [creditCount] at hae
      have e1 : isCredit (WPc.toDecr ret : WPc S) = true := rfl
      have e2 : isCredit (WPc.toPop : WPc S) = false := rfl
      simp only [e1, e2, if_true, if_false, Bool.false_eq_true] at hsum
      rw [hcc]
      omega
    · intro j w2 hj idh hid
      by_cases hij : i = j
      · subst hij
        rw [show ({ c with
            activeWorkerCount := c.activeWorkerCount - 1
            workers := c.workers.set i WPc.toPop } : Config S Sol).workers =
            c.workers.set i WPc.toPop from rfl] at hj
        rw [get?_set_self _ _ _ (List.get?_eq_some.mp h1).1] at hj
        cases hj
        simp [heldId] at hid
      · rw [show ({ c with
            activeWorkerCount := c.activeWorkerCount - 1
            workers := c.workers.set i WPc.toPop } : Config S Sol).workers =
            c.workers.set i WPc.toPop from rfl] at hj
        rw [get?_set_ne _ _ _ _ hij] at hj
        exact inv.held_popped j w2 hj idh hid
    · intro j idh sh ph hj
      by_cases hij : i = j
      · subst hij
        rw [show ({ c with
            activeWorkerCount := c.activeWorkerCount - 1
            workers := c.workers.set i WPc.toPop } : Config S Sol).workers =
            c.workers.set i WPc.toPop from rfl] at hj
        rw [get?_set_self _ _ _ (List.get?_eq_some.mp h1).1] at hj
        cases hj
      · rw [show ({ c with
            activeWorkerCount := c.activeWorkerCount - 1
            workers := c.workers.set i WPc.toPop } : Config S Sol).workers =
            c.workers.set i WPc.toPop from rfl] at hj
        rw [get?_set_ne _ _ _ _ hij] at hj
        exact inv.expanding_live j idh sh ph hj

/-- The invariant holds along every reachable configuration. -/
theorem Inv.reach_inv {ec : EngineCfg S Sol} {ops : StateOps S Sol} {c0 c : Config S Sol}
    (inv0 : Inv ops c0) (h : Reach ec ops c0 c) : Inv ops c := by
  induction h with
  | refl => exact inv0
  | tail _hr hs ih =>
    obtain ⟨i, a, hst⟩ := hs
    exact ih.preserve_step hst

/-- Unfolding of a successful `initConfig`. -/
theorem initConfig_some {ec : EngineCfg S Sol} {ops : StateOps S Sol} {root : S}
    {n fuel : Nat} {c0 : Config S Sol} (h : initConfig ec ops root n fuel = some c0) :
    ∃ r evs, ProcessState ec ops root fuel = some (r, evs) ∧
      c0 = { globalStateStack :=
               ((List.range' 1 (pushesOf evs).length).zip (pushesOf evs)).reverse
             activeWorkerCount := 0
             solCount := incsOf evs
             solutions := solsOf evs
             workers := List.replicate n WPc.toPop
             nextId := (pushesOf evs).length + 1
             poppedIds := []
             deletedIds := [] } := by
  unfold initConfig at h
  cases hps : ProcessState ec ops root fuel with
  | none => rw [hps] at h; cases h
  | some pr =>
    obtain ⟨b, evs⟩ := pr
    rw [hps] at h
    simp only [Option.map_some', Option.some.injEq] at h
    exact ⟨b, evs, ⟨rfl, h.symm⟩⟩

/-- The ids seeded by `initConfig` are `k, ..., 1` from top to bottom. -/
theorem init_frontierIds {c0 : Config S Sol} {evs : List (Event S Sol)}
    (hst : c0.globalStateStack =
      ((List.range' 1 (pushesOf evs).length).zip (pushesOf evs)).reverse) :
    frontierIds c0 = (List.range' 1 (pushesOf evs).length).reverse := by
  unfold frontierIds
  rw [hst, List.map_reverse]
  congr 1
  exact List.map_fst_zip _ _ (by rw [List.length_range'])

/-- The configuration produced by `initConfig` satisfies the structural
invariant. -/
theorem initConfig_Inv {ec : EngineCfg S Sol} {ops : StateOps S Sol} {root : S}
    {n fuel : Nat} {c0 : Config S Sol} (h : initConfig ec ops root n fuel = some c0) :
    Inv ops c0 := by
  obtain ⟨r, evs, hps, hc⟩ := initConfig_some h
  have hstack : c0.globalStateStack =
      ((List.range' 1 (pushesOf evs).length).zip (pushesOf evs)).reverse := by rw [hc]
  have hact : c0.activeWorkerCount = 0 := by rw [hc]
  have hwrk : c0.workers = List.replicate n WPc.toPop := by rw [hc]
  have hnext : c0.nextId = (pushesOf evs).length + 1 := by rw [hc]
  have hpop : c0.poppedIds = [] := by rw [hc]
  have hdel : c0.deletedIds = [] := by rw [hc]
  have hfr : frontierIds c0 = (List.range' 1 (pushesOf evs).length).reverse :=
    init_frontierIds hstack
  constructor
  · rw [hact]
    unfold creditCount
    rw [hwrk]
    simp [List.map_replicate, isCredit, List.sum_replicate]
  · intro x hx
    rw [hpop, List.append_nil, hfr, List.mem_reverse, List.mem_range'_1] at hx
    rw [hnext]
    exact ⟨hx.1, by omega⟩
  · rw [hnext]
    omega
  · rw [hpop, List.append_nil, hfr, List.nodup_reverse]
    exact List.nodup_range' 1 _
  · intro i w hi id hid
    rw [hwrk] at hi
    have hweq := List.eq_of_mem_replicate (List.get?_mem hi)
    subst hweq
    simp [heldId] at hid
  · rw [hdel]
    intro x hx
    simp at hx
  · intro i id s p hi
    rw [hwrk] at hi
    have hweq := List.eq_of_mem_replicate (List.get?_mem hi)
    cases hweq

/-- A non-empty frontier always has an engaged worker looking after it. -/
theorem EngagedInv.preserve_engaged {ec : EngineCfg S Sol} {ops : StateOps S Sol} {i : Nat}
    {a : Act S} {c c' : Config S Sol} (einv : EngagedInv c) (h : Step ec ops i a c c') :
    EngagedInv c' := by
  have hlt : i < c.workers.length := h.i_lt
  cases h with
  | popOk c i id s rest h1 h2 =>
    intro _hne
    exact ⟨i, _, get?_set_self c.workers i _ ((List.get?_eq_some.mp h1).1), rfl⟩
  | popFail c i h1 h2 =>
    intro hne
    exact absurd h2 hne
  | loopSpin c i h1 h2 =>
    intro _hne
    exact ⟨i, _, get?_set_self c.workers i _ ((List.get?_eq_some.mp h1).1), rfl⟩
  | loopExit c i h1 h2 =>
    intro hne
    obtain ⟨j, w, hj, hw⟩ := einv hne
    have hij : i ≠ j := by
      intro he
      subst he
      rw [h1] at hj
      cases hj
      cases hw
    exact ⟨j, w, by
      rw [show ({ c with workers := c.workers.set i WPc.exited } : Config S Sol).workers =
        c.workers.set i WPc.exited from rfl, get?_set_ne _ _ _ _ hij]
      exact hj, hw⟩
  | branchGoal c i id s h1 h2 =>
    intro _hne
    exact ⟨i, _, get?_set_self c.workers i _ ((List.get?_eq_some.mp h1).1), rfl⟩
  | branchDead c i id s h1 h2 h3 =>
    intro _hne
    exact ⟨i, _, get?_set_self c.workers i _ ((List.get?_eq_some.mp h1).1), rfl⟩
  | branchExpand c i id s h1 h2 h3 =>
    intro _hne
    exact ⟨i, _, get?_set_self c.workers i _ ((List.get?_eq_some.mp h1).1), rfl⟩
  | incCount c i id s h1 =>
    intro _hne
    exact ⟨i, _, get?_set_self c.workers i _ ((List.get?_eq_some.mp h1).1),
      by cases ec.storeSolutions <;> rfl⟩
  | appendSol c i id s h1 =>
    intro _hne
    exact ⟨i, _, get?_set_self c.workers i _ ((List.get?_eq_some.mp h1).1), rfl⟩
  | visitRet c i id s h1 =>
    intro _hne
    exact ⟨i, _, get?_set_self c.workers i _ ((List.get?_eq_some.mp h1).1), rfl⟩
  | cursorPush c i id s prev q h1 h2 h3 =>
    intro _hne
    exact ⟨i, _, get?_set_self c.workers i _ ((List.get?_eq_some.mp h1).1), rfl⟩
  | cursorSkip c i id s prev q h1 h2 h3 =>
    intro _hne
    exact ⟨i, _, get?_set_self c.workers i _ ((List.get?_eq_some.mp h1).1), rfl⟩
  | cursorDone c i id s prev h1 h2 =>
    intro _hne
    exact ⟨i, _, get?_set_self c.workers i _ ((List.get?_eq_some.mp h1).1), rfl⟩
  | decr c i ret h1 =>
    intro _hne
    exact ⟨i, _, get?_set_self c.workers i _ ((List.get?_eq_some.mp h1).1), rfl⟩

/-- The engaged-worker invariant along reachability. -/
theorem EngagedInv.reach_engaged {ec : EngineCfg S Sol} {ops : StateOps S Sol}
    {c0 c : Config S Sol} (e0 : EngagedInv c0) (h : Reach ec ops c0 c) : EngagedInv c := by
  induction h with
  | refl => exact e0
  | tail _hr hs ih =>
    obtain ⟨i, a, hst⟩ := hs
    exact ih.preserve_engaged hst

/-- With at least one worker, `initConfig` satisfies the engaged-worker
invariant. -/
theorem initConfig_EngagedInv {ec : EngineCfg S Sol} {ops : StateOps S Sol} {root : S}
    {n fuel : Nat} {c0 : Config S Sol} (hn : 0 < n)
    (h : initConfig ec ops root n fuel = some c0) : EngagedInv c0 := by
  obtain ⟨r, evs, hps, hc⟩ := initConfig_some h
  have hwrk : c0.workers = List.replicate n WPc.toPop := by rw [hc]
  intro _hne
  refine ⟨0, WPc.toPop, ?_, rfl⟩
  rw [hwrk]
  cases n with
  | zero => omega
  | succ m => rfl

/-!
### The counting invariant

`solCount` plus the number of goal states still hidden in frontier subtrees
or in-flight worker states never changes. -/

theorem pendingGW_step {ec : EngineCfg S Sol} {ops : StateOps S Sol}
    (fe : FiniteExpansion ops) {i : Nat} {a : Act S} {c c' : Config S Sol}
    (h : Step ec ops i a c c') :
    c'.solCount + pendingGW ops fe c' = c.solCount + pendingGW ops fe c := by
  cases h with
  | popOk c i id s rest h1 h2 =>
    have hsum := map_sum_set (wGW ops fe) c.workers i (WPc.gotState id s) WPc.toPop h1
    have e1 : wGW ops fe WPc.toPop = 0 := rfl
    have e2 : wGW ops fe (WPc.gotState id s) = GW ops fe s := rfl
    rw [e1, e2] at hsum
    simp only [pendingGW]
    rw [h2]
    simp only [List.map_cons, List.sum_cons]
    omega
  | popFail c i h1 h2 =>
    have hsum := map_sum_set (wGW ops fe) c.workers i WPc.gotNone WPc.toPop h1
    have e1 : wGW ops fe WPc.toPop = 0 := rfl
    have e2 : wGW ops fe WPc.gotNone = 0 := rfl
    rw [e1, e2] at hsum
    simp only [pendingGW]
    omega
  | loopSpin c i h1 h2 =>
    have hsum := map_sum_set (wGW ops fe) c.workers i WPc.toPop WPc.gotNone h1
    have e1 : wGW ops fe WPc.toPop = 0 := rfl
    have e2 : wGW ops fe WPc.gotNone = 0 := rfl
    rw [e1, e2] at hsum
    simp only [pendingGW]
    omega
  | loopExit c i h1 h2 =>
    have hsum := map_sum_set (wGW ops fe) c.workers i WPc.exited WPc.gotNone h1
    have e1 : wGW ops fe WPc.exited = 0 := rfl
    have e2 : wGW ops fe WPc.gotNone = 0 := rfl
    rw [e1, e2] at hsum
    simp only [pendingGW]
    omega
  | branchGoal c i id s h1 h2 =>
    have hsum := map_sum_set (wGW ops fe) c.workers i (WPc.atInc id s)
      (WPc.gotState id s) h1
    have e1 : wGW ops fe (WPc.gotState id s) = GW ops fe s := rfl
    have e2 : wGW ops fe (WPc.atInc id s) = 1 := rfl
    have e3 : GW ops fe s = 1 := GW_goal fe h2
    rw [e1, e2, e3] at hsum
    simp only [pendingGW]
    omega
  | branchDead c i id s h1 h2 h3 =>
    have hsum := map_sum_set (wGW ops fe) c.workers i (WPc.toDecr false)
      (WPc.gotState id s) h1
    have e1 : wGW ops fe (WPc.gotState id s) = GW ops fe s := rfl
    have e2 : wGW ops fe (WPc.toDecr false) = 0 := rfl
    have e3 : GW ops fe s = 0 := GW_dead fe h2 h3
    rw [e1, e2, e3] at hsum
    simp only [pendingGW]
    omega
  | branchExpand c i id s h1 h2 h3 =>
    have hsum := map_sum_set (wGW ops fe) c.workers i (WPc.expanding id s startPair)
      (WPc.gotState id s) h1
    have e1 : wGW ops fe (WPc.gotState id s) = GW ops fe s := rfl
    have e2 : wGW ops fe (WPc.expanding id s startPair) =
        (((restPairs ops fe s startPair).filter (fun q => ops.IsFeasiblePair s q)).map
          (fun q => GW ops fe (ops.AddPair s q))).sum := rfl
    have e3 := GW_live fe h2 h3
    rw [e1, e2, e3] at hsum
    simp only [pendingGW]
    omega
  | incCount c i id s h1 =>
    have hsum := map_sum_set (wGW ops fe) c.workers i
      (if ec.storeSolutions then WPc.atAppend id s else WPc.atVisit id s)
      (WPc.atInc id s) h1
    have e1 : wGW ops fe (WPc.atInc id s) = 1 := rfl
    have e2 : wGW ops fe
        (if ec.storeSolutions then WPc.atAppend id s else WPc.atVisit id s) = 0 := by
      cases ec.storeSolutions <;> rfl
    rw [e1, e2] at hsum
    simp only [pendingGW]
    omega
  | appendSol c i id s h1 =>
    have hsum := map_sum_set (wGW ops fe) c.workers i (WPc.atVisit id s)
      (WPc.atAppend id s) h1
    have e1 : wGW ops fe (WPc.atAppend id s) = 0 := rfl
    have e2 : wGW ops fe (WPc.atVisit id s) = 0 := rfl
    rw [e1, e2] at hsum
    simp only [pendingGW]
    omega
  | visitRet c i id s h1 =>
    have hsum := map_sum_set (wGW ops fe) c.workers i (WPc.toDecr (goalResult ec s))
      (WPc.atVisit id s) h1
    have e1 : wGW ops fe (WPc.atVisit id s) = 0 := rfl
    have e2 : wGW ops fe (WPc.toDecr (goalResult ec s)) = 0 := rfl
    rw [e1, e2] at hsum
    simp only [pendingGW]
    omega
  | cursorPush c i id s prev q h1 h2 h3 =>
    have hsum := map_sum_set (wGW ops fe) c.workers i (WPc.expanding id s q)
      (WPc.expanding id s prev) h1
    have e1 : wGW ops fe (WPc.expanding id s prev) =
        (((restPairs ops fe s prev).filter (fun x => ops.IsFeasiblePair s x)).map
          (fun x => GW ops fe (ops.AddPair s x))).sum := rfl
    have e2 : wGW ops fe (WPc.expanding id s q) =
        (((restPairs ops fe s q).filter (fun x => ops.IsFeasiblePair s x)).map
          (fun x => GW ops fe (ops.AddPair s x))).sum := rfl
    have e3 := eGW_cons fe h2
    simp only [h3, if_true] at e3
    rw [e1, e2, e3] at hsum
    simp only [pendingGW]
    simp only [List.map_cons, List.sum_cons]
    omega
  | cursorSkip c i id s prev q h1 h2 h3 =>
    have hsum := map_sum_set (wGW ops fe) c.workers i (WPc.expanding id s q)
      (WPc.expanding id s prev) h1
    have e1 : wGW ops fe (WPc.expanding id s prev) =
        (((restPairs ops fe s prev).filter (fun x => ops.IsFeasiblePair s x)).map
          (fun x => GW ops fe (ops.AddPair s x))).sum := rfl
    have e2 : wGW ops fe (WPc.expanding id s q) =
        (((restPairs ops fe s q).filter (fun x => ops.IsFeasiblePair s x)).map
          (fun x => GW ops fe (ops.AddPair s x))).sum := rfl
    have e3 := eGW_cons fe h2
    simp only [h3, Bool.false_eq_true, if_false] at e3
    rw [e1, e2, e3] at hsum
    simp only [pendingGW]
    omega
  | cursorDone c i id s prev h1 h2 =>
    have hsum := map_sum_set (wGW ops fe) c.workers i (WPc.toDecr false)
      (WPc.expanding id s prev) h1
    have e1 : wGW ops fe (WPc.expanding id s prev) =
        (((restPairs ops fe s prev).filter (fun x => ops.IsFeasiblePair s x)).map
          (fun x => GW ops fe (ops.AddPair s x))).sum := rfl
    have e2 : wGW ops fe (WPc.toDecr false) = 0 := rfl
    have e3 := eGW_none fe h2
    rw [e1, e2, e3] at hsum
    simp only [pendingGW]
    omega
  | decr c i ret h1 =>
    have hsum := map_sum_set (wGW ops fe) c.workers i WPc.toPop (WPc.toDecr ret) h1
    have e1 : wGW ops fe (WPc.toDecr ret) = 0 := rfl
    have e2 : wGW ops fe WPc.toPop = 0 := rfl
    rw [e1, e2] at hsum
    simp only [pendingGW]
    omega

/-- `solCount + pendingGW` is constant along every execution. -/
theorem pendingGW_reach {ec : EngineCfg S Sol} {ops : StateOps S Sol}
    (fe : FiniteExpansion ops) {c0 c : Config S Sol} (h : Reach ec ops c0 c) :
    c.solCount + pendingGW ops fe c = c0.solCount + pendingGW ops fe c0 := by
  induction h with
  | refl => rfl
  | tail _hr hs ih =>
    obtain ⟨i, a, hst⟩ := hs
    rw [pendingGW_step fe hst, ih]

/-!
### The solution-log invariant
-/

theorem map_sum_set_vals {α : Type} (f : α → Nat) (l : List α) (i : Nat) (a b : α)
    (h : l.get? i = some b) (va vb : Nat) (ha : f a = va) (hb : f b = vb) :
    vb + ((l.set i a).map f).sum = va + (l.map f).sum := by
  rw [← ha, ← hb]
  exact map_sum_set f l i a b h

theorem pendingAppends_step {ec : EngineCfg S Sol} {ops : StateOps S Sol}
    {i : Nat} {a : Act S} {c c' : Config S Sol} (h : Step ec ops i a c c')
    (hst : ec.storeSolutions = true)
    (hinv : c.solCount = c.solutions.length + pendingAppends c) :
    c'.solCount = c'.solutions.length + pendingAppends c' := by
  cases h with
  | popOk c i id s rest h1 h2 =>
    have hsum := map_sum_set_vals (fun w =>
        match w with
        | WPc.atAppend _ _ => (1 : Nat)
        | _ => 0) c.workers i (WPc.gotState id s) WPc.toPop h1 0 0 rfl rfl
    simp only [pendingAppends] at hinv ⊢
    omega
  | popFail c i h1 h2 =>
    have hsum := map_sum_set_vals (fun w =>
        match w with
        | WPc.atAppend _ _ => (1 : Nat)
        | _ => 0) c.workers i WPc.gotNone WPc.toPop h1 0 0 rfl rfl
    simp only [pendingAppends] at hinv ⊢
    omega
  | loopSpin c i h1 h2 =>
    have hsum := map_sum_set_vals (fun w =>
        match w with
        | WPc.atAppend _ _ => (1 : Nat)
        | _ => 0) c.workers i WPc.toPop WPc.gotNone h1 0 0 rfl rfl
    simp only [pendingAppends] at hinv ⊢
    omega
  | loopExit c i h1 h2 =>
    have hsum := map_sum_set_vals (fun w =>
        match w with
        | WPc.atAppend _ _ => (1 : Nat)
        | _ => 0) c.workers i WPc.exited WPc.gotNone h1 0 0 rfl rfl
    simp only [pendingAppends] at hinv ⊢
    omega
  | branchGoal c i id s h1 h2 =>
    have hsum := map_sum_set_vals (fun w =>
        match w with
        | WPc.atAppend _ _ => (1 : Nat)
        | _ => 0) c.workers i (WPc.atInc id s) (WPc.gotState id s) h1 0 0 rfl rfl
    simp only [pendingAppends] at hinv ⊢
    omega
  | branchDead c i id s h1 h2 h3 =>
    have hsum := map_sum_set_vals (fun w =>
        match w with
        | WPc.atAppend _ _ => (1 : Nat)
        | _ => 0) c.workers i (WPc.toDecr false) (WPc.gotState id s) h1 0 0 rfl rfl
    simp only [pendingAppends] at hinv ⊢
    omega
  | branchExpand c i id s h1 h2 h3 =>
    have hsum := map_sum_set_vals (fun w =>
        match w with
        | WPc.atAppend _ _ => (1 : Nat)
        | _ => 0) c.workers i (WPc.expanding id s startPair) (WPc.gotState id s) h1
        0 0 rfl rfl
    simp only [pendingAppends] at hinv ⊢
    omega
  | incCount c i id s h1 =>
    have hsum := map_sum_set_vals (fun w =>
        match w with
        | WPc.atAppend _ _ => (1 : Nat)
        | _ => 0) c.workers i
      (if ec.storeSolutions then WPc.atAppend id s else WPc.atVisit id s)
      (WPc.atInc id s) h1 1 0 (by rw [hst]; rfl) rfl
    simp only [pendingAppends] at hinv ⊢
    omega
  | appendSol c i id s h1 =>
    have hsum := map_sum_set_vals (fun w =>
        match w with
        | WPc.atAppend _ _ => (1 : Nat)
        | _ => 0) c.workers i (WPc.atVisit id s) (WPc.atAppend id s) h1 0 1 rfl rfl
    simp only [pendingAppends] at hinv ⊢
    simp only [List.length_append, List.length_cons, List.length_nil]
    omega
  | visitRet c i id s h1 =>
    have hsum := map_sum_set_vals (fun w =>
        match w with
        | WPc.atAppend _ _ => (1 : Nat)
        | _ => 0) c.workers i (WPc.toDecr (goalResult ec s)) (WPc.atVisit id s) h1
        0 0 rfl rfl
    simp only [pendingAppends] at hinv ⊢
    omega
  | cursorPush c i id s prev q h1 h2 h3 =>
    have hsum := map_sum_set_vals (fun w =>
        match w with
        | WPc.atAppend _ _ => (1 : Nat)
        | _ => 0) c.workers i (WPc.expanding id s q) (WPc.expanding id s prev) h1
        0 0 rfl rfl
    simp only [pendingAppends] at hinv ⊢
    omega
  | cursorSkip c i id s prev q h1 h2 h3 =>
    have hsum := map_sum_set_vals (fun w =>
        match w with
        | WPc.atAppend _ _ => (1 : Nat)
        | _ => 0) c.workers i (WPc.expanding id s q) (WPc.expanding id s prev) h1
        0 0 rfl rfl
    simp only [pendingAppends] at hinv ⊢
    omega
  | cursorDone c i id s prev h1 h2 =>
    have hsum := map_sum_set_vals (fun w =>
        match w with
        | WPc.atAppend _ _ => (1 : Nat)
        | _ => 0) c.workers i (WPc.toDecr false) (WPc.expanding id s prev) h1
        0 0 rfl rfl
    simp only [pendingAppends] at hinv ⊢
    omega
  | decr c i ret h1 =>
    have hsum := map_sum_set_vals (fun w =>
        match w with
        | WPc.atAppend _ _ => (1 : Nat)
        | _ => 0) c.workers i WPc.toPop (WPc.toDecr ret) h1 0 0 rfl rfl
    simp only [pendingAppends] at hinv ⊢
    omega

theorem pendingAppends_reach {ec : EngineCfg S Sol} {ops : StateOps S Sol}
    {c0 c : Config S Sol} (h : Reach ec ops c0 c) (hst : ec.storeSolutions = true)
    (h0 : c0.solCount = c0.solutions.length + pendingAppends c0) :
    c.solCount = c.solutions.length + pendingAppends c := by
  induction h with
  | refl => exact h0
  | tail _hr hs ih =>
    obtain ⟨i, a, hstep⟩ := hs
    exact pendingAppends_step hstep hst ih

/-!
### Terminal configurations
-/

/-- At a terminal configuration the frontier is empty: the exhaustion check
never abandons pending work. -/
theorem terminal_stack_empty {c : Config S Sol} (ht : Terminal c) (einv : EngagedInv c) :
    c.globalStateStack = [] := by
  by_contra hne
  obtain ⟨j, w, hj, hw⟩ := einv hne
  have hwe := ht w (List.get?_mem hj)
  subst hwe
  cases hw

theorem terminal_pendingGW_zero {ops : StateOps S Sol} (fe : FiniteExpansion ops)
    {c : Config S Sol} (ht : Terminal c) (einv : EngagedInv c) :
    pendingGW ops fe c = 0 := by
  unfold pendingGW
  rw [terminal_stack_empty ht einv]
  simp only [List.map_nil, List.sum_nil, Nat.zero_add]
  apply List.sum_eq_zero
  intro x hx
  rw [List.mem_map] at hx
  obtain ⟨w, hwmem, hwx⟩ := hx
  rw [ht w hwmem] at hwx
  exact hwx.symm

theorem terminal_pendingAppends_zero {c : Config S Sol} (ht : Terminal c) :
    pendingAppends c = 0 := by
  unfold pendingAppends
  apply List.sum_eq_zero
  intro x hx
  rw [List.mem_map] at hx
  obtain ⟨w, hwmem, hwx⟩ := hx
  rw [ht w hwmem] at hwx
  exact hwx.symm

/-!
### Event-list bookkeeping
-/

theorem pushesOf_goalEvents (ec : EngineCfg S Sol) (ops : StateOps S Sol) (s : S) :
    pushesOf (goalEvents ec ops s) = [] := by
  cases hst : ec.storeSolutions <;> cases hv : ec.visit <;>
    simp [goalEvents, pushesOf, hst, hv, List.filterMap_cons, List.filterMap_append]

theorem incsOf_goalEvents (ec : EngineCfg S Sol) (ops : StateOps S Sol) (s : S) :
    incsOf (goalEvents ec ops s) = 1 := by
  cases hst : ec.storeSolutions <;> cases hv : ec.visit <;>
    simp [goalEvents, incsOf, hst, hv, List.countP_cons, List.countP_append]

theorem solsOf_goalEvents (ec : EngineCfg S Sol) (ops : StateOps S Sol) (s : S) :
    solsOf (goalEvents ec ops s) =
      if ec.storeSolutions then [ops.GetCoreSet s] else [] := by
  cases hst : ec.storeSolutions <;> cases hv : ec.visit <;>
    simp [goalEvents, solsOf, hst, hv, List.filterMap_cons, List.filterMap_append]

theorem visitsOf_goalEvents (ec : EngineCfg S Sol) (ops : StateOps S Sol) (s : S) :
    visitsOf (goalEvents ec ops s) =
      (match ec.visit with
       | some v => [(s, v s)]
       | none => []) := by
  cases hst : ec.storeSolutions <;> cases hv : ec.visit <;>
    simp [goalEvents, visitsOf, hst, hv, List.filterMap_cons, List.filterMap_append]

theorem pushesOf_pushEvts (ops : StateOps S Sol) (s : S) (ps : List Pair) :
    pushesOf (pushEvts ops s ps) =
      (ps.filter (fun q => ops.IsFeasiblePair s q)).map (fun q => ops.AddPair s q) := by
  unfold pushEvts
  generalize (ps.filter (fun q => ops.IsFeasiblePair s q)) = l
  induction l with
  | nil => rfl
  | cons x xs ih =>
    simp only [List.map_cons, pushesOf, List.filterMap_cons] at *
    rw [ih]

theorem incsOf_pushEvts (ops : StateOps S Sol) (s : S) (ps : List Pair) :
    incsOf (pushEvts ops s ps) = 0 := by
  unfold pushEvts
  generalize (ps.filter (fun q => ops.IsFeasiblePair s q)) = l
  induction l with
  | nil => rfl
  | cons x xs ih =>
    simp only [List.map_cons, incsOf, List.countP_cons] at *
    rw [ih]
    rfl

theorem solsOf_pushEvts (ops : StateOps S Sol) (s : S) (ps : List Pair) :
    solsOf (pushEvts ops s ps) = [] := by
  unfold pushEvts
  generalize (ps.filter (fun q => ops.IsFeasiblePair s q)) = l
  induction l with
  | nil => rfl
  | cons x xs ih =>
    simp only [List.map_cons, solsOf, List.filterMap_cons] at *
    rw [ih]

/-- The cursor list at full fuel is exactly `restPairs` whenever the cursor
terminated within the supplied fuel. -/
theorem restPairs_of_cursorList {ops : StateOps S Sol} (fe : FiniteExpansion ops)
    {s : S} {fuel : Nat} {ps : List Pair}
    (h : cursorList ops s fuel startPair = some ps) :
    restPairs ops fe s startPair = ps := by
  have hok := fe.cursor_ok s startPair
  rw [Option.isSome_iff_exists] at hok
  obtain ⟨l, hl⟩ := hok
  unfold restPairs
  rw [hl]
  exact cursorList_unique hl h

/-- Value of the conserved quantity at the initial configuration: the goal
count of the root's expansion tree. -/
theorem initConfig_count {ec : EngineCfg S Sol} {ops : StateOps S Sol}
    (fe : FiniteExpansion ops) {root : S} {n fuel : Nat} {c0 : Config S Sol}
    (h : initConfig ec ops root n fuel = some c0) :
    c0.solCount + pendingGW ops fe c0 = GW ops fe root := by
  obtain ⟨r, evs, hps, hc⟩ := initConfig_some h
  have hsnd : (((List.range' 1 (pushesOf evs).length).zip (pushesOf evs)).reverse.map
      (fun x => GW ops fe x.2)).sum = ((pushesOf evs).map (GW ops fe)).sum := by
    have h1 : (((List.range' 1 (pushesOf evs).length).zip (pushesOf evs)).reverse.map
        (fun x => GW ops fe x.2)) =
        ((((List.range' 1 (pushesOf evs).length).zip (pushesOf evs)).reverse.map
          Prod.snd).map (GW ops fe)) := by
      rw [List.map_map]
      rfl
    rw [h1, List.map_reverse, List.map_snd_zip _ _ (by rw [List.length_range']),
      List.map_reverse]
    exact List.sum_reverse _
  have hpend : pendingGW ops fe c0 = ((pushesOf evs).map (GW ops fe)).sum := by
    unfold pendingGW
    rw [hc]
    show (((List.range' 1 (pushesOf evs).length).zip (pushesOf evs)).reverse.map
        (fun x => GW ops fe x.2)).sum +
      ((List.replicate n WPc.toPop).map (wGW ops fe)).sum = _
    rw [hsnd, List.map_replicate]
    show _ + (List.replicate n 0).sum = _
    rw [List.sum_replicate]
    simp
  have hsc : c0.solCount = incsOf evs := by rw [hc]
  rw [hsc, hpend]
  unfold ProcessState at hps
  by_cases hg : ops.IsGoal root = true
  · rw [if_pos hg] at hps
    cases hps
    rw [incsOf_goalEvents, pushesOf_goalEvents, GW_goal fe hg]
    rfl
  · rw [if_neg hg] at hps
    have hg' : ops.IsGoal root = false := by
      cases hgv : ops.IsGoal root
      · rfl
      · exact absurd hgv hg
    by_cases hd : ops.IsDead root = true
    · rw [if_pos hd] at hps
      cases hps
      rw [GW_dead fe hg' hd]
      rfl
    · rw [if_neg hd] at hps
      have hd' : ops.IsDead root = false := by
        cases hdv : ops.IsDead root
        · rfl
        · exact absurd hdv hd
      rw [expandLoop_eq] at hps
      cases hcl : cursorList ops root fuel startPair with
      | none =>
        rw [hcl] at hps
        cases hps
      | some ps =>
        rw [hcl] at hps
        simp only [Option.map_some', Option.some.injEq, Prod.mk.injEq] at hps
        have hevs : evs = pushEvts ops root ps := hps.2.symm
        subst hevs
        rw [incsOf_pushEvts, pushesOf_pushEvts, GW_live fe hg' hd',
          restPairs_of_cursorList fe hcl, List.map_map]
        simp only [Nat.zero_add]
        rw [show (GW ops fe ∘ fun q => ops.AddPair root q) =
          (fun q => GW ops fe (ops.AddPair root q)) from rfl]

/-!
### The termination measure never increases, and strictly decreases on
every step of a credit-holding worker.
-/

theorem phi_step {ec : EngineCfg S Sol} {ops : StateOps S Sol} (fe : FiniteExpansion ops)
    {i : Nat} {a : Act S} {c c' : Config S Sol} (h : Step ec ops i a c c') :
    phi ops fe c' ≤ phi ops fe c ∧
      (∀ w, c.workers.get? i = some w → isCredit w = true →
        phi ops fe c' < phi ops fe c) := by
  cases h with
  | popOk c i id s rest h1 h2 =>
    have hsum := map_sum_set_vals (wWeight ops fe) c.workers i (WPc.gotState id s)
      WPc.toPop h1 (F ops fe s - 1) 0 rfl rfl
    have hF := F_pos fe s
    have hlt : phi ops fe { c with
        globalStateStack := rest
        activeWorkerCount := c.activeWorkerCount + 1
        poppedIds := c.poppedIds ++ [id]
        workers := c.workers.set i (WPc.gotState id s) } < phi ops fe c := by
      simp only [phi]
      rw [h2]
      simp only [List.map_cons, List.sum_cons]
      omega
    exact ⟨Nat.le_of_lt hlt, fun w hw hcred => hlt⟩
  | popFail c i h1 h2 =>
    have hsum := map_sum_set_vals (wWeight ops fe) c.workers i WPc.gotNone
      WPc.toPop h1 0 0 rfl rfl
    constructor
    · simp only [phi]
      omega
    · intro w hw hcred
      rw [h1] at hw
      cases hw
      simp [isCredit] at hcred
  | loopSpin c i h1 h2 =>
    have hsum := map_sum_set_vals (wWeight ops fe) c.workers i WPc.toPop
      WPc.gotNone h1 0 0 rfl rfl
    constructor
    · simp only [phi]
      omega
    · intro w hw hcred
      rw [h1] at hw
      cases hw
      simp [isCredit] at hcred
  | loopExit c i h1 h2 =>
    have hsum := map_sum_set_vals (wWeight ops fe) c.workers i WPc.exited
      WPc.gotNone h1 0 0 rfl rfl
    constructor
    · simp only [phi]
      omega
    · intro w hw hcred
      rw [h1] at hw
      cases hw
      simp [isCredit] at hcred
  | branchGoal c i id s h1 h2 =>
    have hsum := map_sum_set_vals (wWeight ops fe) c.workers i (WPc.atInc id s)
      (WPc.gotState id s) h1 4 8
      rfl (by show F ops fe s - 1 = 8; rw [F_goal fe h2])
    have hlt : phi ops fe { c with workers := c.workers.set i (WPc.atInc id s) } <
        phi ops fe c := by
      simp only [phi]
      omega
    exact ⟨Nat.le_of_lt hlt, fun w hw hcred => hlt⟩
  | branchDead c i id s h1 h2 h3 =>
    have hsum := map_sum_set_vals (wWeight ops fe) c.workers i (WPc.toDecr false)
      (WPc.gotState id s) h1 1 8
      rfl (by show F ops fe s - 1 = 8; rw [F_dead fe h2 h3])
    have hlt : phi ops fe { c with
        workers := c.workers.set i (WPc.toDecr false)
        deletedIds := c.deletedIds ++ [id] } < phi ops fe c := by
      simp only [phi]
      omega
    exact ⟨Nat.le_of_lt hlt, fun w hw hcred => hlt⟩
  | branchExpand c i id s h1 h2 h3 =>
    have hsum := map_sum_set_vals (wWeight ops fe) c.workers i
      (WPc.expanding id s startPair) (WPc.gotState id s) h1
      (eW ops fe s startPair) (eW ops fe s startPair + 5)
      rfl (by show F ops fe s - 1 = eW ops fe s startPair + 5
              rw [F_live_eW fe h2 h3]
              omega)
    have hlt : phi ops fe { c with
        workers := c.workers.set i (WPc.expanding id s startPair) } < phi ops fe c := by
      simp only [phi]
      omega
    exact ⟨Nat.le_of_lt hlt, fun w hw hcred => hlt⟩
  | incCount c i id s h1 =>
    have hv : ∃ v, wWeight ops fe
        (if ec.storeSolutions then WPc.atAppend id s else WPc.atVisit id s) = v ∧
        v ≤ 3 := by
      cases ec.storeSolutions
      · exact ⟨2, rfl, by omega⟩
      · exact ⟨3, rfl, by omega⟩
    obtain ⟨va, hva, hva3⟩ := hv
    have hsum := map_sum_set_vals (wWeight ops fe) c.workers i
      (if ec.storeSolutions then WPc.atAppend id s else WPc.atVisit id s)
      (WPc.atInc id s) h1 va 4 hva rfl
    have hlt : phi ops fe { c with
        solCount := c.solCount + 1
        workers := c.workers.set i
          (if ec.storeSolutions then WPc.atAppend id s else WPc.atVisit id s) } <
        phi ops fe c := by
      simp only [phi]
      omega
    exact ⟨Nat.le_of_lt hlt, fun w hw hcred => hlt⟩
  | appendSol c i id s h1 =>
    have hsum := map_sum_set_vals (wWeight ops fe) c.workers i (WPc.atVisit id s)
      (WPc.atAppend id s) h1 2 3 rfl rfl
    have hlt : phi ops fe { c with
        solutions := c.solutions ++ [ops.GetCoreSet s]
        workers := c.workers.set i (WPc.atVisit id s) } < phi ops fe c := by
      simp only [phi]
      omega
    exact ⟨Nat.le_of_lt hlt, fun w hw hcred => hlt⟩
  | visitRet c i id s h1 =>
    have hsum := map_sum_set_vals (wWeight ops fe) c.workers i
      (WPc.toDecr (goalResult ec s)) (WPc.atVisit id s) h1 1 2 rfl rfl
    have hlt : phi ops fe { c with
        workers := c.workers.set i (WPc.toDecr (goalResult ec s))
        deletedIds := c.deletedIds ++ [id] } < phi ops fe c := by
      simp only [phi]
      omega
    exact ⟨Nat.le_of_lt hlt, fun w hw hcred => hlt⟩
  | cursorPush c i id s prev q h1 h2 h3 =>
    have he := eW_cons fe h2
    simp only [h3, if_true] at he
    have hsum := map_sum_set_vals (wWeight ops fe) c.workers i (WPc.expanding id s q)
      (WPc.expanding id s prev) h1 (eW ops fe s q) (eW ops fe s prev) rfl rfl
    have hlt : phi ops fe { c with
        globalStateStack := (c.nextId, ops.AddPair s q) :: c.globalStateStack
        nextId := c.nextId + 1
        workers := c.workers.set i (WPc.expanding id s q) } < phi ops fe c := by
      simp only [phi]
      simp only [List.map_cons, List.sum_cons]
      omega
    exact ⟨Nat.le_of_lt hlt, fun w hw hcred => hlt⟩
  | cursorSkip c i id s prev q h1 h2 h3 =>
    have he := eW_cons fe h2
    simp only [h3, Bool.false_eq_true, if_false] at he
    have hsum := map_sum_set_vals (wWeight ops fe) c.workers i (WPc.expanding id s q)
      (WPc.expanding id s prev) h1 (eW ops fe s q) (eW ops fe s prev) rfl rfl
    have hlt : phi ops fe { c with
        workers := c.workers.set i (WPc.expanding id s q) } < phi ops fe c := by
      simp only [phi]
      omega
    exact ⟨Nat.le_of_lt hlt, fun w hw hcred => hlt⟩
  | cursorDone c i id s prev h1 h2 =>
    have he := eW_none fe h2
    have hsum := map_sum_set_vals (wWeight ops fe) c.workers i (WPc.toDecr false)
      (WPc.expanding id s prev) h1 1 (eW ops fe s prev) rfl rfl
    have hlt : phi ops fe { c with
        workers := c.workers.set i (WPc.toDecr false)
        deletedIds := c.deletedIds ++ [id] } < phi ops fe c := by
      simp only [phi]
      omega
    exact ⟨Nat.le_of_lt hlt, fun w hw hcred => hlt⟩
  | decr c i ret h1 =>
    have hsum := map_sum_set_vals (wWeight ops fe) c.workers i WPc.toPop
      (WPc.toDecr ret) h1 0 1 rfl rfl
    have hlt : phi ops fe { c with
        activeWorkerCount := c.activeWorkerCount - 1
        workers := c.workers.set i WPc.toPop } < phi ops fe c := by
      simp only [phi]
      omega
    exact ⟨Nat.le_of_lt hlt, fun w hw hcred => hlt⟩

/-!
### Temporal reasoning along fair runs
-/

theorem run_reach {ec : EngineCfg S Sol} {ops : StateOps S Sol} {run : Nat → Config S Sol}
    (hv : ValidRun ec ops run) : ∀ n, Reach ec ops (run 0) (run n) := by
  intro n
  induction n with
  | zero => exact Relation.ReflTransGen.refl
  | succ n ih =>
    rcases hv n with hs | ⟨_ht, heq⟩
    · exact ih.tail hs
    · rw [heq]
      exact ih

theorem run_len {ec : EngineCfg S Sol} {ops : StateOps S Sol} {run : Nat → Config S Sol}
    (hv : ValidRun ec ops run) :
    ∀ n, (run n).workers.length = (run 0).workers.length := by
  intro n
  induction n with
  | zero => rfl
  | succ n ih =>
    rcases hv n with ⟨i, a, hs⟩ | ⟨_ht, heq⟩
    · rw [hs.length_workers, ih]
    · rw [heq, ih]

theorem run_phi_mono {ec : EngineCfg S Sol} {ops : StateOps S Sol}
    (fe : FiniteExpansion ops) {run : Nat → Config S Sol} (hv : ValidRun ec ops run)
    (a b : Nat) (hab : a ≤ b) : phi ops fe (run b) ≤ phi ops fe (run a) := by
  obtain ⟨k, rfl⟩ : ∃ k, b = a + k := ⟨b - a, by omega⟩
  clear hab
  induction k with
  | zero => exact Nat.le_refl _
  | succ k ih =>
    rcases hv (a + k) with ⟨i, act, hs⟩ | ⟨_ht, heq⟩
    · exact Nat.le_trans (phi_step fe hs).1 ih
    · rw [show a + (k + 1) = a + k + 1 from rfl, heq]
      exact ih

/-- A worker's control point does not change while it is not scheduled. -/
theorem pc_stable_of_no_steps {ec : EngineCfg S Sol} {ops : StateOps S Sol}
    {run : Nat → Config S Sol} (hv : ValidRun ec ops run) (i t : Nat) (w : WPc S)
    (hw : (run t).workers.get? i = some w) (_hne : w ≠ WPc.exited) :
    ∀ k, (∀ m, t ≤ m → m < t + k → ¬ StepsAt ec ops run i m) →
      (run (t + k)).workers.get? i = some w := by
  intro k
  induction k with
  | zero => exact fun _ => hw
  | succ k ih =>
    intro hno
    have hk : (run (t + k)).workers.get? i = some w :=
      ih (fun m hm1 hm2 => hno m hm1 (by omega))
    rcases hv (t + k) with ⟨j, a, hs⟩ | ⟨ht, heq⟩
    · by_cases hij : j = i
      · subst hij
        exact absurd ⟨a, hs⟩ (hno (t + k) (by omega) (by omega))
      · rw [show t + (k + 1) = t + k + 1 from rfl, hs.get?_other i hij]
        exact hk
    · rw [show t + (k + 1) = t + k + 1 from rfl, heq]
      exact hk

/-- A fair scheduler eventually schedules every non-exited worker, and its
control point is unchanged at the first such instant. -/
theorem exists_first_step {ec : EngineCfg S Sol} {ops : StateOps S Sol}
    {run : Nat → Config S Sol} (hv : ValidRun ec ops run) (hf : FairRun ec ops run)
    {i : Nat} (hlen : i < (run 0).workers.length) {t : Nat} {w : WPc S}
    (hw : (run t).workers.get? i = some w) (hne : w ≠ WPc.exited) :
    ∃ m, t ≤ m ∧ (run m).workers.get? i = some w ∧ StepsAt ec ops run i m := by
  classical
  by_cases hs : ∃ k, StepsAt ec ops run i (t + k)
  · have hk0 := Nat.find_spec hs
    have hstable := pc_stable_of_no_steps hv i t w hw hne (Nat.find hs)
      (fun m hm1 hm2 => by
        have hmk : m = t + (m - t) := by omega
        rw [hmk]
        exact Nat.find_min hs (by omega))
    exact ⟨t + Nat.find hs, Nat.le_add_right _ _, hstable, hk0⟩
  · push_neg at hs
    have hstable : ∀ k, (run (t + k)).workers.get? i = some w := fun k =>
      pc_stable_of_no_steps hv i t w hw hne k (fun m hm1 hm2 => by
        have hmk : m = t + (m - t) := by omega
        rw [hmk]
        exact hs (m - t))
    obtain ⟨m, hm, hcase⟩ := hf i hlen t
    rcases hcase with hex | hstep
    · exfalso
      have hpc : (run m).workers.get? i = some w := by
        have hmk : m = t + (m - t) := by omega
        rw [hmk]
        exact hstable _
      rw [hex] at hpc
      cases hpc
      exact hne rfl
    · exfalso
      have hmk : m = t + (m - t) := by omega
      rw [hmk] at hstep
      exact hs (m - t) hstep

/-- From any instant at which some worker holds credit, the measure later
strictly drops below its current value. -/
theorem credit_phi_dec {ec : EngineCfg S Sol} {ops : StateOps S Sol}
    (fe : FiniteExpansion ops) {run : Nat → Config S Sol} (hv : ValidRun ec ops run)
    (hf : FairRun ec ops run) {i : Nat} (hlen : i < (run 0).workers.length)
    {t : Nat} {w : WPc S} (hw : (run t).workers.get? i = some w)
    (hcred : isCredit w = true) :
    ∃ m, t ≤ m ∧ phi ops fe (run (m + 1)) < phi ops fe (run t) := by
  have hne : w ≠ WPc.exited := by
    intro he
    subst he
    simp [isCredit] at hcred
  obtain ⟨m, hm, hpc, a, hs⟩ := exists_first_step hv hf hlen hw hne
  have hlt := (phi_step fe hs).2 w hpc hcred
  have hmono := run_phi_mono fe hv t m hm
  exact ⟨m, hm, by omega⟩

/-- Eventually no worker ever holds credit again. -/
theorem no_credit_eventually {ec : EngineCfg S Sol} {ops : StateOps S Sol}
    (fe : FiniteExpansion ops) {run : Nat → Config S Sol} (hv : ValidRun ec ops run)
    (hf : FairRun ec ops run) :
    ∃ N, ∀ m, N ≤ m → ∀ j w, (run m).workers.get? j = some w → isCredit w = false := by
  suffices aux : ∀ v n, phi ops fe (run n) ≤ v →
      ∃ N, n ≤ N ∧ ∀ m, N ≤ m → ∀ j w, (run m).workers.get? j = some w →
        isCredit w = false by
    obtain ⟨N, _, hN⟩ := aux (phi ops fe (run 0)) 0 (Nat.le_refl _)
    exact ⟨N, hN⟩
  intro v
  induction v using Nat.strong_induction_on with
  | _ v ih =>
    intro n hn
    by_cases hc : ∃ m, n ≤ m ∧ ∃ j w, (run m).workers.get? j = some w ∧
        isCredit w = true
    · obtain ⟨m, hm, j, w, hw, hcred⟩ := hc
      have hlen : j < (run 0).workers.length := by
        have hj := (List.get?_eq_some.mp hw).1
        rwa [run_len hv m] at hj
      obtain ⟨m', hm', hlt⟩ := credit_phi_dec fe hv hf hlen hw hcred
      have hmono := run_phi_mono fe hv n m hm
      have hlt' : phi ops fe (run (m' + 1)) < v := by omega
      obtain ⟨N, hN1, hN2⟩ := ih _ hlt' (m' + 1) (Nat.le_refl _)
      exact ⟨N, by omega, hN2⟩
    · push_neg at hc
      refine ⟨n, Nat.le_refl _, fun m hm j w hw => ?_⟩
      have hnc := hc m hm j w hw
      cases hcw : isCredit w
      · rfl
      · exact absurd hcw hnc

/-- If a step changes the frontier, the stepping worker either just popped
(and now holds credit) or was pushing in the expansion loop (and held
credit). -/
theorem step_stack_cases {ec : EngineCfg S Sol} {ops : StateOps S Sol} {i : Nat}
    {a : Act S} {c c' : Config S Sol} (h : Step ec ops i a c c') :
    c'.globalStateStack = c.globalStateStack ∨
      (∃ id s, c'.workers.get? i = some (WPc.gotState id s)) ∨
      (∃ id s p, c.workers.get? i = some (WPc.expanding id s p)) := by
  cases h with
  | popOk c i id s rest h1 h2 =>
    refine Or.inr (Or.inl ⟨id, s, ?_⟩)
    exact get?_set_self c.workers i _ ((List.get?_eq_some.mp h1).1)
  | popFail c i h1 h2 => exact Or.inl rfl
  | loopSpin c i h1 h2 => exact Or.inl rfl
  | loopExit c i h1 h2 => exact Or.inl rfl
  | branchGoal c i id s h1 h2 => exact Or.inl rfl
  | branchDead c i id s h1 h2 h3 => exact Or.inl rfl
  | branchExpand c i id s h1 h2 h3 => exact Or.inl rfl
  | incCount c i id s h1 => exact Or.inl rfl
  | appendSol c i id s h1 => exact Or.inl rfl
  | visitRet c i id s h1 => exact Or.inl rfl
  | cursorPush c i id s prev q h1 h2 h3 => exact Or.inr (Or.inr ⟨id, s, prev, h1⟩)
  | cursorSkip c i id s prev q h1 h2 h3 => exact Or.inl rfl
  | cursorDone c i id s prev h1 h2 => exact Or.inl rfl
  | decr c i ret h1 => exact Or.inl rfl

/-- After the last credit is gone, the frontier never changes again. -/
theorem stack_stable {ec : EngineCfg S Sol} {ops : StateOps S Sol}
    {run : Nat → Config S Sol} (hv : ValidRun ec ops run) (N : Nat)
    (hnc : ∀ m, N ≤ m → ∀ j w, (run m).workers.get? j = some w → isCredit w = false) :
    ∀ m, N ≤ m → (run m).globalStateStack = (run N).globalStateStack := by
  have key : ∀ k, (run (N + k)).globalStateStack = (run N).globalStateStack := by
    intro k
    induction k with
    | zero => rfl
    | succ k ih =>
      rw [show N + (k + 1) = N + k + 1 from rfl]
      rcases hv (N + k) with ⟨j, a, hs⟩ | ⟨_ht, heq⟩
      · rcases step_stack_cases hs with heq | ⟨id, s, hget⟩ | ⟨id, s, p, hget⟩
        · rw [heq, ih]
        · exact absurd (hnc (N + k + 1) (by omega) j _ hget) (by simp [isCredit])
        · exact absurd (hnc (N + k) (by omega) j _ hget) (by simp [isCredit])
      · rw [heq, ih]
  intro m hm
  have hmk : m = N + (m - N) := by omega
  rw [hmk]
  exact key _

/-- If no worker holds credit, the counter reads zero. -/
theorem active_zero_of_no_credit {ops : StateOps S Sol} {c : Config S Sol}
    (inv : Inv ops c)
    (hnc : ∀ j w, c.workers.get? j = some w → isCredit w = false) :
    c.activeWorkerCount = 0 := by
  rw [inv.active_eq]
  have hz : creditCount c = 0 := by
    unfold creditCount
    apply List.sum_eq_zero
    intro x hx
    rw [List.mem_map] at hx
    obtain ⟨w, hwmem, hwx⟩ := hx
    obtain ⟨j, hj⟩ := List.mem_iff_get?.mp hwmem
    rw [hnc j w hj] at hwx
    simp at hwx
    omega
  rw [hz]
  rfl

/-- Inversion: the possible steps of a worker whose `GetState` is due. -/
theorem step_from_toPop {ec : EngineCfg S Sol} {ops : StateOps S Sol} {i : Nat}
    {a : Act S} {c c' : Config S Sol} (h : Step ec ops i a c c')
    (hpc : c.workers.get? i = some WPc.toPop) :
    (∃ id s rest, c.globalStateStack = (id, s) :: rest ∧ a = Act.popOk id s ∧
      c'.workers.get? i = some (WPc.gotState id s)) ∨
    (c.globalStateStack = [] ∧ a = Act.popFail ∧
      c'.workers.get? i = some WPc.gotNone) := by
  cases h with
  | popOk c i id s rest h1 h2 =>
    exact Or.inl ⟨id, s, rest, h2, rfl,
      get?_set_self c.workers i _ ((List.get?_eq_some.mp h1).1)⟩
  | popFail c i h1 h2 =>
    exact Or.inr ⟨h2, rfl, get?_set_self c.workers i _ ((List.get?_eq_some.mp h1).1)⟩
  | loopSpin c i h1 h2 => rw [hpc] at h1; cases h1
  | loopExit c i h1 h2 => rw [hpc] at h1; cases h1
  | branchGoal c i id s h1 h2 => rw [hpc] at h1; cases h1
  | branchDead c i id s h1 h2 h3 => rw [hpc] at h1; cases h1
  | branchExpand c i id s h1 h2 h3 => rw [hpc] at h1; cases h1
  | incCount c i id s h1 => rw [hpc] at h1; cases h1
  | appendSol c i id s h1 => rw [hpc] at h1; cases h1
  | visitRet c i id s h1 => rw [hpc] at h1; cases h1
  | cursorPush c i id s prev q h1 h2 h3 => rw [hpc] at h1; cases h1
  | cursorSkip c i id s prev q h1 h2 h3 => rw [hpc] at h1; cases h1
  | cursorDone c i id s prev h1 h2 => rw [hpc] at h1; cases h1
  | decr c i ret h1 => rw [hpc] at h1; cases h1

/-- Inversion: the possible steps of a worker evaluating the loop condition
with no current state. -/
theorem step_from_gotNone {ec : EngineCfg S Sol} {ops : StateOps S Sol} {i : Nat}
    {a : Act S} {c c' : Config S Sol} (h : Step ec ops i a c c')
    (hpc : c.workers.get? i = some WPc.gotNone) :
    (0 < c.activeWorkerCount ∧ a = Act.loopSpin ∧
      c'.workers.get? i = some WPc.toPop) ∨
    (c.activeWorkerCount ≤ 0 ∧ a = Act.loopExit ∧
      c'.workers.get? i = some WPc.exited) := by
  cases h with
  | popOk c i id s rest h1 h2 => rw [hpc] at h1; cases h1
  | popFail c i h1 h2 => rw [hpc] at h1; cases h1
  | loopSpin c i h1 h2 =>
    exact Or.inl ⟨h2, rfl, get?_set_self c.workers i _ ((List.get?_eq_some.mp h1).1)⟩
  | loopExit c i h1 h2 =>
    exact Or.inr ⟨h2, rfl, get?_set_self c.workers i _ ((List.get?_eq_some.mp h1).1)⟩
  | branchGoal c i id s h1 h2 => rw [hpc] at h1; cases h1
  | branchDead c i id s h1 h2 h3 => rw [hpc] at h1; cases h1
  | branchExpand c i id s h1 h2 h3 => rw [hpc] at h1; cases h1
  | incCount c i id s h1 => rw [hpc] at h1; cases h1
  | appendSol c i id s h1 => rw [hpc] at h1; cases h1
  | visitRet c i id s h1 => rw [hpc] at h1; cases h1
  | cursorPush c i id s prev q h1 h2 h3 => rw [hpc] at h1; cases h1
  | cursorSkip c i id s prev q h1 h2 h3 => rw [hpc] at h1; cases h1
  | cursorDone c i id s prev h1 h2 => rw [hpc] at h1; cases h1
  | decr c i ret h1 => rw [hpc] at h1; cases h1

/-- Once a worker has exited it stays exited. -/
theorem exited_forever {ec : EngineCfg S Sol} {ops : StateOps S Sol}
    {run : Nat → Config S Sol} (hv : ValidRun ec ops run) (i t : Nat)
    (ht : (run t).workers.get? i = some WPc.exited) :
    ∀ m, t ≤ m → (run m).workers.get? i = some WPc.exited := by
  have key : ∀ k, (run (t + k)).workers.get? i = some WPc.exited := by
    intro k
    induction k with
    | zero => exact ht
    | succ k ih =>
      rw [show t + (k + 1) = t + k + 1 from rfl]
      rcases hv (t + k) with ⟨j, a, hs⟩ | ⟨_hterm, heq⟩
      · exact exited_stable hs i ih
      · rw [heq]
        exact ih
  intro m hm
  have hmk : m = t + (m - t) := by omega
  rw [hmk]
  exact key _

/-- Main termination argument: on a fair schedule, every worker exits and a
terminal configuration is reached. -/
theorem run_terminates {ec : EngineCfg S Sol} {ops : StateOps S Sol}
    (fe : FiniteExpansion ops) {root : S} {n fuel : Nat} {c0 : Config S Sol}
    {run : Nat → Config S Sol}
    (hinit : initConfig ec ops root n fuel = some c0)
    (hr0 : run 0 = c0) (hv : ValidRun ec ops run) (hf : FairRun ec ops run) :
    ∃ N, Terminal (run N) := by
  classical
  have hInv : ∀ m, Inv ops (run m) := by
    intro m
    have hre := run_reach hv m
    rw [hr0] at hre
    exact (initConfig_Inv hinit).reach_inv hre
  obtain ⟨N, hnc⟩ := no_credit_eventually fe hv hf
  have hact : ∀ m, N ≤ m → (run m).activeWorkerCount = 0 := fun m hm =>
    active_zero_of_no_credit (hInv m) (hnc m hm)
  have hgotNone : ∀ i t, N ≤ t → i < (run 0).workers.length →
      (run t).workers.get? i = some WPc.gotNone →
      ∃ M, ∀ m, M ≤ m → (run m).workers.get? i = some WPc.exited := by
    intro i t hNt hlen hpc
    obtain ⟨m, hm, hpcm, a, hs⟩ := exists_first_step hv hf hlen hpc (by intro h; cases h)
    rcases step_from_gotNone hs hpcm with ⟨hpos, _, _⟩ | ⟨_, _, hex⟩
    · rw [hact m (by omega)] at hpos
      exact absurd hpos (by omega)
    · exact ⟨m + 1, fun m2 hm2 => exited_forever hv i (m + 1) hex m2 hm2⟩
  have htoPop : ∀ i t, N ≤ t → i < (run 0).workers.length →
      (run t).workers.get? i = some WPc.toPop →
      ∃ M, ∀ m, M ≤ m → (run m).workers.get? i = some WPc.exited := by
    intro i t hNt hlen hpc
    obtain ⟨m, hm, hpcm, a, hs⟩ := exists_first_step hv hf hlen hpc (by intro h; cases h)
    rcases step_from_toPop hs hpcm with ⟨id, s, rest, _hcons, _, hnew⟩ | ⟨_hemp, _, hnew⟩
    · exact absurd (hnc (m + 1) (by omega) i _ hnew) (by simp [isCredit])
    · exact hgotNone i (m + 1) (by omega) hlen hnew
  have hworker : ∀ i, ∃ M, ∀ m, M ≤ m → i < (run 0).workers.length →
      (run m).workers.get? i = some WPc.exited := by
    intro i
    by_cases hlen : i < (run 0).workers.length
    · have hlenN : i < (run N).workers.length := by
        rw [run_len hv N]
        exact hlen
      obtain ⟨w, hw⟩ : ∃ w, (run N).workers.get? i = some w := by
        cases hg : (run N).workers.get? i with
        | none =>
          rw [List.get?_eq_none] at hg
          omega
        | some w => exact ⟨w, rfl⟩
      have hcredw := hnc N (Nat.le_refl N) i w hw
      cases w with
      | toPop =>
        obtain ⟨M, hM⟩ := htoPop i N (Nat.le_refl N) hlen hw
        exact ⟨M, fun m hm _ => hM m hm⟩
      | gotNone =>
        obtain ⟨M, hM⟩ := hgotNone i N (Nat.le_refl N) hlen hw
        exact ⟨M, fun m hm _ => hM m hm⟩
      | exited =>
        exact ⟨N, fun m hm _ => exited_forever hv i N hw m hm⟩
      | gotState id s => simp [isCredit] at hcredw
      | atInc id s => simp [isCredit] at hcredw
      | atAppend id s => simp [isCredit] at hcredw
      | atVisit id s => simp [isCredit] at hcredw
      | expanding id s p => simp [isCredit] at hcredw
      | toDecr r => simp [isCredit] at hcredw
    · exact ⟨0, fun m _ hl => absurd hl hlen⟩
  choose M hM using hworker
  refine ⟨(Finset.range (run 0).workers.length).sup M, ?_⟩
  intro w hw
  obtain ⟨j, hj⟩ := List.mem_iff_get?.mp hw
  have hjlen : j < (run 0).workers.length := by
    have := (List.get?_eq_some.mp hj).1
    rwa [run_len hv _] at this
  have hMj : M j ≤ (Finset.range (run 0).workers.length).sup M :=
    Finset.le_sup (Finset.mem_range.mpr hjlen)
  have := hM j _ hMj hjlen
  rw [this] at hj
  cases hj
  rfl

/-!
### Inversion lemmas for the claims
-/

/-- A worker exits only from the loop-condition check after a failed pop,
having read `activeWorkerCount <= 0`. -/
theorem step_exit_inversion {ec : EngineCfg S Sol} {ops : StateOps S Sol} {i : Nat}
    {a : Act S} {c c' : Config S Sol} (h : Step ec ops i a c c')
    (hex : c'.workers.get? i = some WPc.exited) :
    c.workers.get? i = some WPc.gotNone ∧ a = Act.loopExit ∧
      c.activeWorkerCount ≤ 0 := by
  cases h with
  | popOk c i id s rest h1 h2 =>
    rw [get?_set_self c.workers i _ ((List.get?_eq_some.mp h1).1)] at hex
    cases hex
  | popFail c i h1 h2 =>
    rw [get?_set_self c.workers i _ ((List.get?_eq_some.mp h1).1)] at hex
    cases hex
  | loopSpin c i h1 h2 =>
    rw [get?_set_self c.workers i _ ((List.get?_eq_some.mp h1).1)] at hex
    cases hex
  | loopExit c i h1 h2 => exact ⟨h1, rfl, h2⟩
  | branchGoal c i id s h1 h2 =>
    rw [get?_set_self c.workers i _ ((List.get?_eq_some.mp h1).1)] at hex
    cases hex
  | branchDead c i id s h1 h2 h3 =>
    rw [get?_set_self c.workers i _ ((List.get?_eq_some.mp h1).1)] at hex
    cases hex
  | branchExpand c i id s h1 h2 h3 =>
    rw [get?_set_self c.workers i _ ((List.get?_eq_some.mp h1).1)] at hex
    cases hex
  | incCount c i id s h1 =>
    rw [get?_set_self c.workers i _ ((List.get?_eq_some.mp h1).1)] at hex
    by_cases hst : ec.storeSolutions = true
    · rw [if_pos hst] at hex
      cases hex
    · rw [if_neg hst] at hex
      cases hex
  | appendSol c i id s h1 =>
    rw [get?_set_self c.workers i _ ((List.get?_eq_some.mp h1).1)] at hex
    cases hex
  | visitRet c i id s h1 =>
    rw [get?_set_self c.workers i _ ((List.get?_eq_some.mp h1).1)] at hex
    cases hex
  | cursorPush c i id s prev q h1 h2 h3 =>
    rw [get?_set_self c.workers i _ ((List.get?_eq_some.mp h1).1)] at hex
    cases hex
  | cursorSkip c i id s prev q h1 h2 h3 =>
    rw [get?_set_self c.workers i _ ((List.get?_eq_some.mp h1).1)] at hex
    cases hex
  | cursorDone c i id s prev h1 h2 =>
    rw [get?_set_self c.workers i _ ((List.get?_eq_some.mp h1).1)] at hex
    cases hex
  | decr c i ret h1 =>
    rw [get?_set_self c.workers i _ ((List.get?_eq_some.mp h1).1)] at hex
    cases hex

/-- A worker enters the loop-condition check with no current state only via
a failed `GetState` on an empty frontier. -/
theorem step_into_gotNone {ec : EngineCfg S Sol} {ops : StateOps S Sol} {i : Nat}
    {a : Act S} {c c' : Config S Sol} (h : Step ec ops i a c c')
    (hnew : c'.workers.get? i = some WPc.gotNone)
    (_hold : c.workers.get? i ≠ some WPc.gotNone) :
    a = Act.popFail ∧ c.globalStateStack = [] ∧
      c.workers.get? i = some WPc.toPop := by
  cases h with
  | popOk c i id s rest h1 h2 =>
    rw [get?_set_self c.workers i _ ((List.get?_eq_some.mp h1).1)] at hnew
    cases hnew
  | popFail c i h1 h2 => exact ⟨rfl, h2, h1⟩
  | loopSpin c i h1 h2 =>
    rw [get?_set_self c.workers i _ ((List.get?_eq_some.mp h1).1)] at hnew
    cases hnew
  | loopExit c i h1 h2 =>
    rw [get?_set_self c.workers i _ ((List.get?_eq_some.mp h1).1)] at hnew
    cases hnew
  | branchGoal c i id s h1 h2 =>
    rw [get?_set_self c.workers i _ ((List.get?_eq_some.mp h1).1)] at hnew
    cases hnew
  | branchDead c i id s h1 h2 h3 =>
    rw [get?_set_self c.workers i _ ((List.get?_eq_some.mp h1).1)] at hnew
    cases hnew
  | branchExpand c i id s h1 h2 h3 =>
    rw [get?_set_self c.workers i _ ((List.get?_eq_some.mp h1).1)] at hnew
    cases hnew
  | incCount c i id s h1 =>
    rw [get?_set_self c.workers i _ ((List.get?_eq_some.mp h1).1)] at hnew
    by_cases hst : ec.storeSolutions = true
    · rw [if_pos hst] at hnew
      cases hnew
    · rw [if_neg hst] at hnew
      cases hnew
  | appendSol c i id s h1 =>
    rw [get?_set_self c.workers i _ ((List.get?_eq_some.mp h1).1)] at hnew
    cases hnew
  | visitRet c i id s h1 =>
    rw [get?_set_self c.workers i _ ((List.get?_eq_some.mp h1).1)] at hnew
    cases hnew
  | cursorPush c i id s prev q h1 h2 h3 =>
    rw [get?_set_self c.workers i _ ((List.get?_eq_some.mp h1).1)] at hnew
    cases hnew
  | cursorSkip c i id s prev q h1 h2 h3 =>
    rw [get?_set_self c.workers i _ ((List.get?_eq_some.mp h1).1)] at hnew
    cases hnew
  | cursorDone c i id s prev h1 h2 =>
    rw [get?_set_self c.workers i _ ((List.get?_eq_some.mp h1).1)] at hnew
    cases hnew
  | decr c i ret h1 =>
    rw [get?_set_self c.workers i _ ((List.get?_eq_some.mp h1).1)] at hnew
    cases hnew

/-- The only step that lowers the counter is the `activeWorkerCount--` of a
worker that has finished `ProcessState` and deleted its state. -/
theorem step_decr_inversion {ec : EngineCfg S Sol} {ops : StateOps S Sol} {i : Nat}
    {a : Act S} {c c' : Config S Sol} (h : Step ec ops i a c c')
    (hlt : c'.activeWorkerCount < c.activeWorkerCount) :
    a = Act.decr ∧ (∃ r, c.workers.get? i = some (WPc.toDecr r)) ∧
      c'.activeWorkerCount = c.activeWorkerCount - 1 := by
  cases h with
  | popOk c i id s rest h1 h2 =>
    exact absurd hlt (by
      show ¬ (c.activeWorkerCount + 1 < c.activeWorkerCount)
      omega)
  | popFail c i h1 h2 =>
    exact absurd hlt (by
      show ¬ (c.activeWorkerCount < c.activeWorkerCount)
      omega)
  | loopSpin c i h1 h2 =>
    exact absurd hlt (by
      show ¬ (c.activeWorkerCount < c.activeWorkerCount)
      omega)
  | loopExit c i h1 h2 =>
    exact absurd hlt (by
      show ¬ (c.activeWorkerCount < c.activeWorkerCount)
      omega)
  | branchGoal c i id s h1 h2 =>
    exact absurd hlt (by
      show ¬ (c.activeWorkerCount < c.activeWorkerCount)
      omega)
  | branchDead c i id s h1 h2 h3 =>
    exact absurd hlt (by
      show ¬ (c.activeWorkerCount < c.activeWorkerCount)
      omega)
  | branchExpand c i id s h1 h2 h3 =>
    exact absurd hlt (by
      show ¬ (c.activeWorkerCount < c.activeWorkerCount)
      omega)
  | incCount c i id s h1 =>
    exact absurd hlt (by
      show ¬ (c.activeWorkerCount < c.activeWorkerCount)
      omega)
  | appendSol c i id s h1 =>
    exact absurd hlt (by
      show ¬ (c.activeWorkerCount < c.activeWorkerCount)
      omega)
  | visitRet c i id s h1 =>
    exact absurd hlt (by
      show ¬ (c.activeWorkerCount < c.activeWorkerCount)
      omega)
  | cursorPush c i id s prev q h1 h2 h3 =>
    exact absurd hlt (by
      show ¬ (c.activeWorkerCount < c.activeWorkerCount)
      omega)
  | cursorSkip c i id s prev q h1 h2 h3 =>
    exact absurd hlt (by
      show ¬ (c.activeWorkerCount < c.activeWorkerCount)
      omega)
  | cursorDone c i id s prev h1 h2 =>
    exact absurd hlt (by
      show ¬ (c.activeWorkerCount < c.activeWorkerCount)
      omega)
  | decr c i ret h1 => exact ⟨rfl, ⟨ret, h1⟩, rfl⟩

/-- A worker reaches the decrement site only when `ProcessState` has
returned: the dead branch, the goal branch after the visitor call, or the
expansion loop finding the cursor exhausted — in which case every child has
already been pushed. -/
theorem step_into_toDecr {ec : EngineCfg S Sol} {ops : StateOps S Sol} {i : Nat}
    {a : Act S} {c c' : Config S Sol} {r : Bool} (h : Step ec ops i a c c')
    (hnew : c'.workers.get? i = some (WPc.toDecr r))
    (hold : ∀ r', c.workers.get? i ≠ some (WPc.toDecr r')) :
    (a = Act.branchDead ∨ a = Act.visitRet r ∨ a = Act.cursorDone) ∧
      (a = Act.cursorDone →
        ∃ id s prev, c.workers.get? i = some (WPc.expanding id s prev) ∧
          ops.NextPair s prev = none) := by
  cases h with
  | popOk c i id s rest h1 h2 =>
    rw [get?_set_self c.workers i _ ((List.get?_eq_some.mp h1).1)] at hnew
    cases hnew
  | popFail c i h1 h2 =>
    rw [get?_set_self c.workers i _ ((List.get?_eq_some.mp h1).1)] at hnew
    cases hnew
  | loopSpin c i h1 h2 =>
    rw [get?_set_self c.workers i _ ((List.get?_eq_some.mp h1).1)] at hnew
    cases hnew
  | loopExit c i h1 h2 =>
    rw [get?_set_self c.workers i _ ((List.get?_eq_some.mp h1).1)] at hnew
    cases hnew
  | branchGoal c i id s h1 h2 =>
    rw [get?_set_self c.workers i _ ((List.get?_eq_some.mp h1).1)] at hnew
    cases hnew
  | branchDead c i id s h1 h2 h3 =>
    exact ⟨Or.inl rfl, fun hc => by cases hc⟩
  | branchExpand c i id s h1 h2 h3 =>
    rw [get?_set_self c.workers i _ ((List.get?_eq_some.mp h1).1)] at hnew
    cases hnew
  | incCount c i id s h1 =>
    rw [get?_set_self c.workers i _ ((List.get?_eq_some.mp h1).1)] at hnew
    by_cases hst : ec.storeSolutions = true
    · rw [if_pos hst] at hnew
      cases hnew
    · rw [if_neg hst] at hnew
      cases hnew
  | appendSol c i id s h1 =>
    rw [get?_set_self c.workers i _ ((List.get?_eq_some.mp h1).1)] at hnew
    cases hnew
  | visitRet c i id s h1 =>
    rw [get?_set_self c.workers i _ ((List.get?_eq_some.mp h1).1)] at hnew
    cases hnew
    exact ⟨Or.inr (Or.inl rfl), fun hc => by cases hc⟩
  | cursorPush c i id s prev q h1 h2 h3 =>
    rw [get?_set_self c.workers i _ ((List.get?_eq_some.mp h1).1)] at hnew
    cases hnew
  | cursorSkip c i id s prev q h1 h2 h3 =>
    rw [get?_set_self c.workers i _ ((List.get?_eq_some.mp h1).1)] at hnew
    cases hnew
  | cursorDone c i id s prev h1 h2 =>
    rw [get?_set_self c.workers i _ ((List.get?_eq_some.mp h1).1)] at hnew
    cases hnew
    exact ⟨Or.inr (Or.inr rfl), fun _ => ⟨id, s, prev, h1, h2⟩⟩
  | decr c i ret h1 => exact absurd h1 (hold ret)

/-- The only step of a worker at the decrement site is the decrement, and
its whole effect is independent of the boolean `ProcessState` returned. -/
theorem step_from_toDecr {ec : EngineCfg S Sol} {ops : StateOps S Sol} {i : Nat}
    {a : Act S} {c c' : Config S Sol} {r : Bool} (h : Step ec ops i a c c')
    (hpc : c.workers.get? i = some (WPc.toDecr r)) :
    a = Act.decr ∧
      c' = { c with
        activeWorkerCount := c.activeWorkerCount - 1
        workers := c.workers.set i WPc.toPop } := by
  cases h with
  | popOk c i id s rest h1 h2 => rw [hpc] at h1; cases h1
  | popFail c i h1 h2 => rw [hpc] at h1; cases h1
  | loopSpin c i h1 h2 => rw [hpc] at h1; cases h1
  | loopExit c i h1 h2 => rw [hpc] at h1; cases h1
  | branchGoal c i id s h1 h2 => rw [hpc] at h1; cases h1
  | branchDead c i id s h1 h2 h3 => rw [hpc] at h1; cases h1
  | branchExpand c i id s h1 h2 h3 => rw [hpc] at h1; cases h1
  | incCount c i id s h1 => rw [hpc] at h1; cases h1
  | appendSol c i id s h1 => rw [hpc] at h1; cases h1
  | visitRet c i id s h1 => rw [hpc] at h1; cases h1
  | cursorPush c i id s prev q h1 h2 h3 => rw [hpc] at h1; cases h1
  | cursorSkip c i id s prev q h1 h2 h3 => rw [hpc] at h1; cases h1
  | cursorDone c i id s prev h1 h2 => rw [hpc] at h1; cases h1
  | decr c i ret h1 => exact ⟨rfl, rfl⟩

/-- Inversion of a successful pop step. -/
theorem step_popOk_inversion {ec : EngineCfg S Sol} {ops : StateOps S Sol} {i : Nat}
    {id : Nat} {s : S} {c c' : Config S Sol}
    (h : Step ec ops i (Act.popOk id s) c c') :
    c.workers.get? i = some WPc.toPop ∧
    c.globalStateStack = (id, s) :: c'.globalStateStack ∧
    c'.activeWorkerCount = c.activeWorkerCount + 1 ∧
    c'.poppedIds = c.poppedIds ++ [id] ∧
    c'.solCount = c.solCount ∧ c'.solutions = c.solutions ∧
    c'.workers = c.workers.set i (WPc.gotState id s) := by
  cases h with
  | popOk c i id s rest h1 h2 => exact ⟨h1, h2, rfl, rfl, rfl, rfl, rfl⟩

/-- Inversion of a failed pop step. -/
theorem step_popFail_inversion {ec : EngineCfg S Sol} {ops : StateOps S Sol} {i : Nat}
    {c c' : Config S Sol} (h : Step ec ops i Act.popFail c c') :
    c.workers.get? i = some WPc.toPop ∧
    c.globalStateStack = [] ∧ c'.globalStateStack = [] ∧
    c'.activeWorkerCount = c.activeWorkerCount ∧
    c'.workers.get? i = some WPc.gotNone := by
  cases h with
  | popFail c i h1 h2 =>
    exact ⟨h1, h2, h2, rfl, get?_set_self c.workers i _ ((List.get?_eq_some.mp h1).1)⟩

/-- Inversion of a push step: the new state goes on top of the stack. -/
theorem step_cursorPush_inversion {ec : EngineCfg S Sol} {ops : StateOps S Sol} {i : Nat}
    {q : Pair} {c c' : Config S Sol} (h : Step ec ops i (Act.cursorPush q) c c') :
    ∃ id s prev, c.workers.get? i = some (WPc.expanding id s prev) ∧
      c'.globalStateStack = (c.nextId, ops.AddPair s q) :: c.globalStateStack := by
  cases h with
  | cursorPush c i id s prev q h1 h2 h3 => exact ⟨id, s, prev, h1, rfl⟩

/-- The final count of any drained run equals the goal count of the root's
expansion tree. -/
theorem terminal_count {ec : EngineCfg S Sol} {ops : StateOps S Sol}
    (fe : FiniteExpansion ops) {root : S} {n fuel : Nat} {c0 c : Config S Sol}
    (hn : 0 < n) (hinit : initConfig ec ops root n fuel = some c0)
    (hr : Reach ec ops c0 c) (ht : Terminal c) :
    c.solCount = GW ops fe root := by
  have hconst := pendingGW_reach fe hr
  have hinitc := initConfig_count fe hinit
  have he := (initConfig_EngagedInv hn hinit).reach_engaged hr
  have hz := terminal_pendingGW_zero fe ht he
  omega

/-- At start-up, the counter equals the log length plus the (zero) pending
appends. -/
theorem init_applen {ec : EngineCfg S Sol} {ops : StateOps S Sol} {root : S}
    {n fuel : Nat} {c0 : Config S Sol} (hst : ec.storeSolutions = true)
    (hinit : initConfig ec ops root n fuel = some c0) :
    c0.solCount = c0.solutions.length + pendingAppends c0 := by
  obtain ⟨r, evs, hps, hc⟩ := initConfig_some hinit
  have hsc : c0.solCount = incsOf evs := by rw [hc]
  have hsol : c0.solutions = solsOf evs := by rw [hc]
  have hwrk : c0.workers = List.replicate n WPc.toPop := by rw [hc]
  have hpa : pendingAppends c0 = 0 := by
    unfold pendingAppends
    rw [hwrk, List.map_replicate]
    show (List.replicate n 0).sum = 0
    rw [List.sum_replicate]
    simp
  rw [hsc, hsol, hpa]
  unfold ProcessState at hps
  by_cases hg : ops.IsGoal root = true
  · rw [if_pos hg] at hps
    cases hps
    rw [incsOf_goalEvents, solsOf_goalEvents, hst]
    rfl
  · rw [if_neg hg] at hps
    by_cases hd : ops.IsDead root = true
    · rw [if_pos hd] at hps
      cases hps
      rfl
    · rw [if_neg hd] at hps
      rw [expandLoop_eq] at hps
      cases hcl : cursorList ops root fuel startPair with
      | none =>
        rw [hcl] at hps
        cases hps
      | some ps =>
        rw [hcl] at hps
        simp only [Option.map_some', Option.some.injEq, Prod.mk.injEq] at hps
        have hevs : evs = pushEvts ops root ps := hps.2.symm
        subst hevs
        rw [incsOf_pushEvts, solsOf_pushEvts]
        rfl

theorem visitsOf_pushEvts (ops : StateOps S Sol) (s : S) (ps : List Pair) :
    visitsOf (pushEvts ops s ps) = [] := by
  unfold pushEvts
  generalize (ps.filter (fun q => ops.IsFeasiblePair s q)) = l
  induction l with
  | nil => rfl
  | cons x xs ih =>
    simp only [List.map_cons, visitsOf, List.filterMap_cons] at *
    rw [ih]

/-!
## The claims
-/

/-- C1.  For every root state whose expansion tree is finite (witnessed by
`FiniteExpansion`), on any fair schedule of any positive number of workers,
every worker's `Run` loop terminates — the run reaches a configuration in
which all workers have exited, at which point `FindAllMatchings` joins them
and returns `true`.  Moreover a worker exits exactly when it holds no
current state after a pop that found the frontier empty and the
active-worker counter reads zero: every transition into `exited` is a
loop-condition check from `gotNone` with the counter equal to zero; `gotNone`
itself arises only from a failed pop on an empty frontier; and from `gotNone`
with a non-positive counter the worker's only possible step is to exit. -/
theorem claim_C1 {ec : EngineCfg S Sol} {ops : StateOps S Sol}
    (fe : FiniteExpansion ops) {root : S} {n fuel : Nat} {c0 : Config S Sol}
    {run : Nat → Config S Sol}
    (_hn : 0 < n)
    (hinit : initConfig ec ops root n fuel = some c0)
    (hr0 : run 0 = c0) (hv : ValidRun ec ops run) (hf : FairRun ec ops run) :
    (∃ N, Terminal (run N) ∧
      FindAllMatchings ec ops root n fuel = some (c0, true)) ∧
    (∀ m j a, Step ec ops j a (run m) (run (m + 1)) →
      (run (m + 1)).workers.get? j = some WPc.exited →
      (run m).workers.get? j = some WPc.gotNone ∧ a = Act.loopExit ∧
        (run m).activeWorkerCount = 0) ∧
    (∀ m j a, Step ec ops j a (run m) (run (m + 1)) →
      (run (m + 1)).workers.get? j = some WPc.gotNone →
      (run m).workers.get? j ≠ some WPc.gotNone →
      a = Act.popFail ∧ (run m).globalStateStack = [] ∧
        (run m).workers.get? j = some WPc.toPop) ∧
    (∀ m j, (run m).workers.get? j = some WPc.gotNone →
      (run m).activeWorkerCount ≤ 0 →
      ∀ a c', Step ec ops j a (run m) c' →
        a = Act.loopExit ∧ c'.workers.get? j = some WPc.exited) := by
  have hInv : ∀ m, Inv ops (run m) := by
    intro m
    have hre := run_reach hv m
    rw [hr0] at hre
    exact (initConfig_Inv hinit).reach_inv hre
  refine ⟨?_, ?_, ?_, ?_⟩
  · obtain ⟨N, hN⟩ := run_terminates fe hinit hr0 hv hf
    refine ⟨N, hN, ?_⟩
    unfold FindAllMatchings
    rw [hinit]
    rfl
  · intro m j a hs hex
    obtain ⟨hgn, ha, hle⟩ := step_exit_inversion hs hex
    refine ⟨hgn, ha, ?_⟩
    have hae := (hInv m).active_eq
    have hcc : (0 : Int) ≤ (creditCount (run m) : Int) := Int.ofNat_nonneg _
    omega
  · intro m j a hs hnew hold
    exact step_into_gotNone hs hnew hold
  · intro m j hpc hle a c' hs
    rcases step_from_gotNone hs hpc with ⟨hpos, _, _⟩ | ⟨_, ha, hex⟩
    · omega
    · exact ⟨ha, hex⟩

/-- C2.  For a fixed root state and state logic with a finite expansion
tree, the value of `GetSolutionsCount()` after the search drains is the same
for every worker count and every interleaving: any two drained runs agree,
and both perform exactly one counter increment per goal node of the root's
expansion tree (so the wrapped `uint32_t` reads agree as well). -/
theorem claim_C2 {ec : EngineCfg S Sol} {ops : StateOps S Sol}
    (fe : FiniteExpansion ops) {root : S} {n1 n2 fuel1 fuel2 : Nat}
    {c0 c0' c c' : Config S Sol}
    (hn1 : 0 < n1) (hn2 : 0 < n2)
    (h1 : initConfig ec ops root n1 fuel1 = some c0)
    (h2 : initConfig ec ops root n2 fuel2 = some c0')
    (hr1 : Reach ec ops c0 c) (ht1 : Terminal c)
    (hr2 : Reach ec ops c0' c') (ht2 : Terminal c') :
    GetSolutionsCount c = GetSolutionsCount c' ∧
      c.solCount = GW ops fe root := by
  have e1 := terminal_count fe hn1 h1 hr1 ht1
  have e2 := terminal_count fe hn2 h2 hr2 ht2
  constructor
  · unfold GetSolutionsCount
    rw [e1, e2]
  · exact e1

/-- C3.  The active-worker counter never goes negative in any reachable
configuration; the only step that lowers it is the lock-free decrement of a
worker sitting at the decrement site after `ProcessState` returned and its
state was deleted; and a worker reaches that site only through the dead
branch, the end of the goal branch, or cursor exhaustion — in the latter
case every child of its state has already been pushed onto the frontier
(`NextPair` yields nothing more). -/
theorem claim_C3 {ec : EngineCfg S Sol} {ops : StateOps S Sol} {root : S}
    {n fuel : Nat} {c0 : Config S Sol}
    (hinit : initConfig ec ops root n fuel = some c0) :
    (∀ c, Reach ec ops c0 c → 0 ≤ c.activeWorkerCount) ∧
    (∀ c c' i a, Reach ec ops c0 c → Step ec ops i a c c' →
      c'.activeWorkerCount < c.activeWorkerCount →
      a = Act.decr ∧ (∃ r, c.workers.get? i = some (WPc.toDecr r)) ∧
        c'.activeWorkerCount = c.activeWorkerCount - 1 ∧
        0 ≤ c'.activeWorkerCount) ∧
    (∀ c c' i a r, Step ec ops i a c c' →
      c'.workers.get? i = some (WPc.toDecr r) →
      (∀ r', c.workers.get? i ≠ some (WPc.toDecr r')) →
      (a = Act.branchDead ∨ a = Act.visitRet r ∨ a = Act.cursorDone) ∧
        (a = Act.cursorDone →
          ∃ id s prev, c.workers.get? i = some (WPc.expanding id s prev) ∧
            ops.NextPair s prev = none)) := by
  refine ⟨?_, ?_, ?_⟩
  · intro c hr
    have hae := ((initConfig_Inv hinit).reach_inv hr).active_eq
    have hcc : (0 : Int) ≤ (creditCount c : Int) := Int.ofNat_nonneg _
    omega
  · intro c c' i a hr hs hlt
    obtain ⟨ha, hpc, he⟩ := step_decr_inversion hs hlt
    refine ⟨ha, hpc, he, ?_⟩
    have hr' : Reach ec ops c0 c' := hr.tail ⟨i, a, hs⟩
    have hae := ((initConfig_Inv hinit).reach_inv hr').active_eq
    have hcc : (0 : Int) ≤ (creditCount c' : Int) := Int.ofNat_nonneg _
    omega
  · intro c c' i a r hs hnew hold
    exact step_into_toDecr hs hnew hold

/-- C4.  `GetState` under the frontier lock: when the frontier is non-empty
the pop step is available, removes exactly the most-recently-pushed state
(the head of the stack, where every push prepends) and increments the
active-worker counter in the same atomic step; when the frontier is empty, a
pop returns null without blocking (a step is always available) and leaves
the counter unchanged; and no allocation id is ever returned by two distinct
pops. -/
theorem claim_C4 {ec : EngineCfg S Sol} {ops : StateOps S Sol} {root : S}
    {n fuel : Nat} {c0 : Config S Sol}
    (hinit : initConfig ec ops root n fuel = some c0) :
    (∀ (c : Config S Sol) i id s rest, c.workers.get? i = some WPc.toPop →
      c.globalStateStack = (id, s) :: rest →
      Step ec ops i (Act.popOk id s) c
        { c with
          globalStateStack := rest
          activeWorkerCount := c.activeWorkerCount + 1
          poppedIds := c.poppedIds ++ [id]
          workers := c.workers.set i (WPc.gotState id s) }) ∧
    (∀ (c c' : Config S Sol) i id s, Step ec ops i (Act.popOk id s) c c' →
      c.globalStateStack = (id, s) :: c'.globalStateStack ∧
      c'.activeWorkerCount = c.activeWorkerCount + 1 ∧
      c'.poppedIds = c.poppedIds ++ [id]) ∧
    (∀ (c c' : Config S Sol) i, Step ec ops i Act.popFail c c' →
      c.globalStateStack = [] ∧ c'.globalStateStack = [] ∧
      c'.activeWorkerCount = c.activeWorkerCount ∧
      c'.workers.get? i = some WPc.gotNone) ∧
    (∀ (c : Config S Sol) i, c.workers.get? i = some WPc.toPop →
      ∃ a c', Step ec ops i a c c') ∧
    (∀ (c c' : Config S Sol) i q, Step ec ops i (Act.cursorPush q) c c' →
      ∃ id s prev, c.workers.get? i = some (WPc.expanding id s prev) ∧
        c'.globalStateStack = (c.nextId, ops.AddPair s q) :: c.globalStateStack) ∧
    (∀ c, Reach ec ops c0 c → c.poppedIds.Nodup) := by
  refine ⟨?_, ?_, ?_, ?_, ?_, ?_⟩
  · intro c i id s rest hpc hstack
    exact Step.popOk c i id s rest hpc hstack
  · intro c c' i id s hs
    obtain ⟨_, h2, h3, h4, _, _, _⟩ := step_popOk_inversion hs
    exact ⟨h2, h3, h4⟩
  · intro c c' i hs
    obtain ⟨_, h2, h3, h4, h5⟩ := step_popFail_inversion hs
    exact ⟨h2, h3, h4, h5⟩
  · intro c i hpc
    cases hstack : c.globalStateStack with
    | nil => exact ⟨Act.popFail, _, Step.popFail c i hpc hstack⟩
    | cons x rest =>
      exact ⟨Act.popOk x.1 x.2, _, Step.popOk c i x.1 x.2 rest hpc (by rw [hstack])⟩
  · intro c c' i q hs
    exact step_cursorPush_inversion hs
  · intro c hr
    have hinv := (initConfig_Inv hinit).reach_inv hr
    exact (List.Nodup.of_append_right hinv.ids_nodup)

/-- C5.  On a goal state `ProcessState` increments the solution counter
exactly once, appends exactly one snapshot extracted from the state to the
log if and only if `storeSolutions` is enabled, pushes no children, invokes
the visitor exactly once with the state when one is configured — returning
its boolean — and returns `true` when none is configured. -/
theorem claim_C5 {ec : EngineCfg S Sol} {ops : StateOps S Sol} {s : S} {fuel : Nat}
    {r : Bool} {evs : List (Event S Sol)}
    (hg : ops.IsGoal s = true)
    (hps : ProcessState ec ops s fuel = some (r, evs)) :
    incsOf evs = 1 ∧ pushesOf evs = [] ∧
    solsOf evs = (if ec.storeSolutions then [ops.GetCoreSet s] else []) ∧
    visitsOf evs = (match ec.visit with
                    | some v => [(s, v s)]
                    | none => []) ∧
    r = (match ec.visit with
         | some v => v s
         | none => true) := by
  unfold ProcessState at hps
  rw [if_pos hg] at hps
  cases hps
  exact ⟨incsOf_goalEvents ec ops s, pushesOf_goalEvents ec ops s,
    solsOf_goalEvents ec ops s, visitsOf_goalEvents ec ops s, rfl⟩

/-- C6.  On a non-goal state `ProcessState` returns a non-match result and
touches neither the solution counter nor the log nor the visitor; a dead
state produces no events at all; otherwise the cursor is iterated from the
start sentinel to exhaustion and exactly the feasible candidate pairs are
pushed, as one-pair deep-copy extensions, in cursor order. -/
theorem claim_C6 {ec : EngineCfg S Sol} {ops : StateOps S Sol} {s : S} {fuel : Nat}
    {r : Bool} {evs : List (Event S Sol)}
    (hg : ops.IsGoal s = false)
    (hps : ProcessState ec ops s fuel = some (r, evs)) :
    r = false ∧ incsOf evs = 0 ∧ solsOf evs = [] ∧ visitsOf evs = [] ∧
    (ops.IsDead s = true → evs = []) ∧
    (ops.IsDead s = false →
      ∃ ps, cursorList ops s fuel startPair = some ps ∧
        pushesOf evs = (ps.filter (fun q => ops.IsFeasiblePair s q)).map
          (fun q => ops.AddPair s q)) := by
  unfold ProcessState at hps
  rw [hg] at hps
  simp only [Bool.false_eq_true, if_false] at hps
  by_cases hd : ops.IsDead s = true
  · rw [if_pos hd] at hps
    cases hps
    exact ⟨rfl, rfl, rfl, rfl, fun _ => rfl, fun hdf => absurd hd (by rw [hdf]; simp)⟩
  · rw [if_neg hd] at hps
    rw [expandLoop_eq] at hps
    cases hcl : cursorList ops s fuel startPair with
    | none =>
      rw [hcl] at hps
      cases hps
    | some ps =>
      rw [hcl] at hps
      simp only [Option.map_some', Option.some.injEq, Prod.mk.injEq] at hps
      obtain ⟨hr, hevs⟩ := hps
      subst hevs
      refine ⟨hr.symm, incsOf_pushEvts ops s ps, solsOf_pushEvts ops s ps,
        visitsOf_pushEvts ops s ps, ?_, ?_⟩
      · intro hdt
        exact absurd hdt hd
      · intro _
        exact ⟨ps, rfl, pushesOf_pushEvts ops s ps⟩

/-- C7 (amended).  With `storeSolutions` enabled, once the search has fully
drained, the length of the persisted solution log equals the exact number of
counter increments, hence equals `GetSolutionsCount()` reduced modulo `2^32`;
in particular the log length equals `GetSolutionsCount()` outright whenever
fewer than `2^32` solutions exist.  (The unconditional equality of the
original claim fails: the `uint32_t` counter wraps once at least `2^32`
solutions are found, see the counterexample.) -/
theorem claim_C7 {ec : EngineCfg S Sol} {ops : StateOps S Sol} {root : S}
    {n fuel : Nat} {c0 c : Config S Sol}
    (hst : ec.storeSolutions = true)
    (hinit : initConfig ec ops root n fuel = some c0)
    (hr : Reach ec ops c0 c) (ht : Terminal c) :
    c.solutions.length = c.solCount ∧
      c.solutions.length % UINT32_MOD = GetSolutionsCount c ∧
      (c.solutions.length < UINT32_MOD →
        c.solutions.length = GetSolutionsCount c) := by
  have hrun := pendingAppends_reach hr hst (init_applen hst hinit)
  have hz := terminal_pendingAppends_zero ht
  have hlen : c.solutions.length = c.solCount := by omega
  refine ⟨hlen, ?_, ?_⟩
  · unfold GetSolutionsCount
    rw [hlen]
  · intro hlt
    unfold GetSolutionsCount
    rw [← hlen, Nat.mod_eq_of_lt hlt]

/-!
### The wrap-around run of scenario D

Supporting lemmas for the counterexample to the literal reading of C7: an
explicit drained run with exactly `2^32` solutions, along which the
`uint32_t` counter wraps back to `0` while the log grows to length `2^32`.
All proofs are by induction; nothing evaluates a `2^32`-element list. -/

theorem cursorList_nextNone {ops : StateOps S Sol} {s : S} {p : Pair}
    (h : ops.NextPair s p = none) (f : Nat) : cursorList ops s f p = some [] := by
  cases f <;> simp [cursorList, h]

theorem cexPairs_succ (j m : Nat) :
    cexPairs j (m + 1) = (j, 0) :: cexPairs (j + 1) m := by
  unfold cexPairs
  rw [List.range'_succ]
  rfl

theorem cexOps_next_start : cexOps.NextPair 0 startPair = some (0, 0) := rfl

theorem cexOps_next_mid (j : Nat) (h : j + 1 < UINT32_MOD) :
    cexOps.NextPair 0 (j, 0) = some (j + 1, 0) := by
  simp [cexOps, startPair, NULL_NODE, h]

theorem cexOps_next_stop (j : Nat) (h : UINT32_MOD ≤ j + 1) :
    cexOps.NextPair 0 (j, 0) = none := by
  have hlt : ¬ (j + 1 < UINT32_MOD) := by omega
  simp [cexOps, startPair, NULL_NODE, hlt]

theorem cexCursor_tail :
    ∀ m f j, j + 1 + m = UINT32_MOD → m ≤ f →
      cursorList cexOps 0 f (j, 0) = some (cexPairs (j + 1) m) := by
  intro m
  induction m with
  | zero =>
    intro f j hj _
    rw [cursorList_nextNone (cexOps_next_stop j (by omega)) f]
    rfl
  | succ k ih =>
    intro f j hj hf
    obtain ⟨g, rfl⟩ : ∃ g, f = g + 1 := ⟨f - 1, by omega⟩
    simp only [cursorList, cexOps_next_mid j (by omega)]
    rw [ih g (j + 1) (by omega) (by omega), Option.map_some']
    rw [cexPairs_succ (j + 1) k]

theorem cexCursor_start (f : Nat) (hf : UINT32_MOD ≤ f) :
    cursorList cexOps 0 f startPair = some (cexPairs 0 UINT32_MOD) := by
  have hK : UINT32_MOD = 4294967296 := rfl
  obtain ⟨g, rfl⟩ : ∃ g, f = g + 1 := ⟨f - 1, by omega⟩
  simp only [cursorList, cexOps_next_start]
  rw [cexCursor_tail (UINT32_MOD - 1) g 0 (by omega) (by omega), Option.map_some']
  have h1 : cexPairs 0 UINT32_MOD = (0, 0) :: cexPairs (0 + 1) (UINT32_MOD - 1) := by
    conv_lhs => rw [show UINT32_MOD = (UINT32_MOD - 1) + 1 from by omega]
    exact cexPairs_succ 0 (UINT32_MOD - 1)
  rw [h1]

theorem cex_zip (k : Nat) :
    ∀ s, (List.range' s k).zip (List.replicate k (1 : Nat)) =
      (List.range' s k).map (fun i => (i, 1)) := by
  induction k with
  | zero => intro s; rfl
  | succ t ih =>
    intro s
    rw [List.range'_succ, List.replicate_succ]
    show (s, 1) :: (List.range' (s + 1) t).zip (List.replicate t 1) = _
    rw [ih (s + 1)]
    rfl

/-- Start-up of scenario D: the calling thread processes the root, seeding
the frontier with the `2^32` goal children (ids `1, ..., 2^32`). -/
theorem cex_init : initConfig wec cexOps 0 1 UINT32_MOD = some (cexCfg 0) := by
  have hps : ProcessState wec cexOps 0 UINT32_MOD =
      some (false, pushEvts cexOps 0 (cexPairs 0 UINT32_MOD)) := by
    unfold ProcessState
    rw [show cexOps.IsGoal 0 = false from rfl]
    simp only [Bool.false_eq_true, if_false]
    rw [show cexOps.IsDead 0 = false from rfl]
    simp only [Bool.false_eq_true, if_false]
    rw [expandLoop_eq, cexCursor_start UINT32_MOD le_rfl, Option.map_some',
      Option.map_some']
  unfold initConfig
  rw [hps, Option.map_some']
  have hpush : pushesOf (pushEvts cexOps 0 (cexPairs 0 UINT32_MOD)) =
      List.replicate UINT32_MOD (1 : Nat) := by
    rw [pushesOf_pushEvts]
    rw [show (fun q => cexOps.IsFeasiblePair 0 q) = fun _ : Pair => true from rfl]
    rw [List.filter_true]
    rw [show (fun q => cexOps.AddPair 0 q) = fun _ : Pair => (1 : Nat) from rfl]
    rw [List.map_const']
    rw [show (cexPairs 0 UINT32_MOD).length = UINT32_MOD from by
      unfold cexPairs; rw [List.length_map, List.length_range']]
  show some _ = some (cexCfg 0)
  rw [Option.some.injEq]
  rw [show pushesOf ((false, pushEvts cexOps 0 (cexPairs 0 UINT32_MOD)).2) =
    pushesOf (pushEvts cexOps 0 (cexPairs 0 UINT32_MOD)) from rfl]
  rw [hpush]
  rw [show incsOf ((false, pushEvts cexOps 0 (cexPairs 0 UINT32_MOD)).2) =
    incsOf (pushEvts cexOps 0 (cexPairs 0 UINT32_MOD)) from rfl]
  rw [incsOf_pushEvts]
  rw [show solsOf ((false, pushEvts cexOps 0 (cexPairs 0 UINT32_MOD)).2) =
    solsOf (pushEvts cexOps 0 (cexPairs 0 UINT32_MOD)) from rfl]
  rw [solsOf_pushEvts]
  rw [List.length_replicate]
  have hstack :
      ((List.range' 1 UINT32_MOD).zip (List.replicate UINT32_MOD (1 : Nat))).reverse
        = cexStack UINT32_MOD := by
    rw [cex_zip UINT32_MOD 1]
    unfold cexStack
    rw [List.map_reverse]
  rw [hstack]
  rfl

theorem cexStack_succ (j : Nat) : cexStack (j + 1) = (j + 1, 1) :: cexStack j := by
  unfold cexStack
  rw [List.range'_concat, Nat.one_mul, Nat.add_comm 1 j, List.reverse_append]
  rfl

theorem cexStack_cons (j : Nat) (hj : 0 < j) :
    cexStack j = (j, 1) :: cexStack (j - 1) := by
  obtain ⟨t, rfl⟩ : ∃ t, j = t + 1 := ⟨j - 1, by omega⟩
  rw [cexStack_succ]
  rfl

theorem cexPopped_snoc (m : Nat) :
    cexPopped (m + 1) = cexPopped m ++ [UINT32_MOD - m] := by
  unfold cexPopped
  simp only [List.range'_concat, List.map_append, List.map_cons, List.map_nil,
    Nat.one_mul, Nat.zero_add]

theorem Config.ext_mk {c c' : Config S Sol}
    (h1 : c.globalStateStack = c'.globalStateStack)
    (h2 : c.activeWorkerCount = c'.activeWorkerCount)
    (h3 : c.solCount = c'.solCount)
    (h4 : c.solutions = c'.solutions)
    (h5 : c.workers = c'.workers)
    (h6 : c.nextId = c'.nextId)
    (h7 : c.poppedIds = c'.poppedIds)
    (h8 : c.deletedIds = c'.deletedIds) : c = c' := by
  cases c
  cases c'
  cases h1
  cases h2
  cases h3
  cases h4
  cases h5
  cases h6
  cases h7
  cases h8
  rfl

theorem cexStep1 (m : Nat) (hm : m < UINT32_MOD) :
    Step wec cexOps 0 (Act.popOk (UINT32_MOD - m) 1) (cexCfg m) (cexA m) := by
  have hstack : (cexCfg m).globalStateStack =
      (UINT32_MOD - m, 1) :: cexStack (UINT32_MOD - m - 1) :=
    cexStack_cons (UINT32_MOD - m) (by omega)
  have heq : cexA m =
      { cexCfg m with
        globalStateStack := cexStack (UINT32_MOD - m - 1)
        activeWorkerCount := (cexCfg m).activeWorkerCount + 1
        poppedIds := (cexCfg m).poppedIds ++ [UINT32_MOD - m]
        workers := (cexCfg m).workers.set 0 (WPc.gotState (UINT32_MOD - m) 1) } :=
    Config.ext_mk rfl rfl rfl rfl rfl rfl (cexPopped_snoc m) rfl
  rw [heq]
  exact @Step.popOk Nat Nat wec cexOps (cexCfg m) 0 (UINT32_MOD - m) 1
    (cexStack (UINT32_MOD - m - 1)) rfl hstack

theorem cexStep2 (m : Nat) : Step wec cexOps 0 Act.branchGoal (cexA m) (cexB m) :=
  Step.branchGoal (cexA m) 0 (UINT32_MOD - m) 1 rfl rfl

theorem cexStep3 (m : Nat) : Step wec cexOps 0 Act.incCount (cexB m) (cexC m) :=
  Step.incCount (cexB m) 0 (UINT32_MOD - m) 1 rfl

theorem cexStep4 (m : Nat) : Step wec cexOps 0 Act.appendSol (cexC m) (cexD m) := by
  have heq : cexD m =
      { cexC m with
        solutions := (cexC m).solutions ++ [cexOps.GetCoreSet 1]
        workers := (cexC m).workers.set 0 (WPc.atVisit (UINT32_MOD - m) 1) } :=
    Config.ext_mk rfl rfl rfl (List.replicate_succ' m 1) rfl rfl rfl rfl
  rw [heq]
  exact @Step.appendSol Nat Nat wec cexOps (cexC m) 0 (UINT32_MOD - m) 1 rfl

theorem cexStep5 (m : Nat) :
    Step wec cexOps 0 (Act.visitRet true) (cexD m) (cexE m) := by
  have heq : cexE m =
      { cexD m with
        workers := (cexD m).workers.set 0 (WPc.toDecr (goalResult wec 1))
        deletedIds := (cexD m).deletedIds ++ [UINT32_MOD - m] } :=
    Config.ext_mk rfl rfl rfl rfl rfl rfl rfl (cexPopped_snoc m)
  rw [heq]
  exact @Step.visitRet Nat Nat wec cexOps (cexD m) 0 (UINT32_MOD - m) 1 rfl

theorem cexStep6 (m : Nat) :
    Step wec cexOps 0 Act.decr (cexE m) (cexCfg (m + 1)) := by
  have heq : cexCfg (m + 1) =
      { cexE m with
        activeWorkerCount := (cexE m).activeWorkerCount - 1
        workers := (cexE m).workers.set 0 WPc.toPop } :=
    Config.ext_mk rfl rfl rfl rfl rfl rfl rfl rfl
  rw [heq]
  exact @Step.decr Nat Nat wec cexOps (cexE m) 0 true rfl

/-- One full child of scenario D: pop, goal branch, increment, append,
return, decrement. -/
theorem cexIter (m : Nat) (hm : m < UINT32_MOD) :
    Reach wec cexOps (cexCfg m) (cexCfg (m + 1)) :=
  Relation.ReflTransGen.head ⟨0, _, cexStep1 m hm⟩
    (Relation.ReflTransGen.head ⟨0, _, cexStep2 m⟩
      (Relation.ReflTransGen.head ⟨0, _, cexStep3 m⟩
        (Relation.ReflTransGen.head ⟨0, _, cexStep4 m⟩
          (Relation.ReflTransGen.head ⟨0, _, cexStep5 m⟩
            (Relation.ReflTransGen.single ⟨0, _, cexStep6 m⟩)))))

theorem cexReach :
    ∀ m, m ≤ UINT32_MOD → Reach wec cexOps (cexCfg 0) (cexCfg m) := by
  intro m
  induction m with
  | zero => intro _; exact Relation.ReflTransGen.refl
  | succ k ih =>
    intro hk
    exact Relation.ReflTransGen.trans (ih (by omega)) (cexIter k (by omega))

set_option maxRecDepth 4096 in
/-- The full drained run of scenario D. -/
theorem cexReach_final : Reach wec cexOps (cexCfg 0) cexFinal := by
  have h0 := cexReach UINT32_MOD le_rfl
  have hstack : (cexCfg UINT32_MOD).globalStateStack = [] := by
    show cexStack (UINT32_MOD - UINT32_MOD) = []
    rw [Nat.sub_self]
    rfl
  have h1 : Step wec cexOps 0 Act.popFail (cexCfg UINT32_MOD) cexMid :=
    @Step.popFail Nat Nat wec cexOps (cexCfg UINT32_MOD) 0 rfl hstack
  have hw2 : cexMid.workers.get? 0 = some WPc.gotNone := rfl
  have ha2 : cexMid.activeWorkerCount ≤ 0 := le_refl 0
  have hfin : cexFinal = { cexMid with workers := cexMid.workers.set 0 WPc.exited } :=
    Config.ext_mk rfl rfl rfl rfl rfl rfl rfl rfl
  have h2 : Step wec cexOps 0 Act.loopExit cexMid cexFinal := by
    rw [hfin]
    exact @Step.loopExit Nat Nat wec cexOps cexMid 0 hw2 ha2
  exact Relation.ReflTransGen.trans h0
    (Relation.ReflTransGen.head ⟨0, Act.popFail, h1⟩
      (Relation.ReflTransGen.single ⟨0, Act.loopExit, h2⟩))

theorem terminal_cexFinal : Terminal cexFinal := by
  intro w hw
  have hwk : cexFinal.workers = [WPc.exited] := rfl
  rw [hwk, List.mem_singleton] at hw
  exact hw

/-- C7, counterexample to the literal claim: for the root whose expansion
tree has exactly `2^32` goal children (scenario D, `storeSolutions` on), the
engine starts up, drains completely — the explicit terminal run
`cexReach_final` — and ends with `2^32` snapshots in the log while
`GetSolutionsCount()` returns `0`: the `uint32_t` counter wrapped.  The
unconditional equality claimed for the log length is therefore false of the
program. -/
theorem claim_C7_counterexample :
    wec.storeSolutions = true ∧
    initConfig wec cexOps 0 1 UINT32_MOD = some (cexCfg 0) ∧
    Reach wec cexOps (cexCfg 0) cexFinal ∧
    Terminal cexFinal ∧
    ¬ cexFinal.solutions.length = GetSolutionsCount cexFinal := by
  refine ⟨rfl, cex_init, cexReach_final, terminal_cexFinal, ?_⟩
  have hlen : cexFinal.solutions.length = UINT32_MOD :=
    List.length_replicate UINT32_MOD 1
  have hcnt : GetSolutionsCount cexFinal = 0 := by
    show UINT32_MOD % UINT32_MOD = 0
    exact Nat.mod_self UINT32_MOD
  rw [hlen, hcnt]
  decide

/-- C8.  `FindAllMatchings(rootState)` processes the root to completion on
the calling thread before any worker exists: the post-`StartPool`
configuration already holds the root's children (and only them) in the
frontier and the root's solution bookkeeping, while all `numThreads` spawned
workers still sit before their first pop.  It returns `true` unconditionally
on normal completion.  The engine deletes only states it popped from the
frontier — all of which carry engine allocation ids (≥ 1) — so the
caller-owned root, which is never pushed and receives no id, is never
destroyed. -/
theorem claim_C8 {ec : EngineCfg S Sol} {ops : StateOps S Sol} {root : S}
    {n fuel : Nat} {c0 : Config S Sol}
    (hinit : initConfig ec ops root n fuel = some c0) :
    FindAllMatchings ec ops root n fuel = some (c0, true) ∧
    c0.workers = List.replicate n WPc.toPop ∧
    GetThreadCount c0 = n ∧
    c0.activeWorkerCount = 0 ∧ c0.poppedIds = [] ∧ c0.deletedIds = [] ∧
    (∃ r evs, ProcessState ec ops root fuel = some (r, evs) ∧
      c0.globalStateStack =
        ((List.range' 1 (pushesOf evs).length).zip (pushesOf evs)).reverse ∧
      c0.solCount = incsOf evs ∧ c0.solutions = solsOf evs) ∧
    (∀ c, Reach ec ops c0 c →
      c.deletedIds ⊆ c.poppedIds ∧ ∀ id ∈ c.deletedIds, 1 ≤ id) := by
  obtain ⟨r, evs, hps, hc⟩ := initConfig_some hinit
  refine ⟨?_, by rw [hc], ?_, by rw [hc], by rw [hc], by rw [hc],
    ⟨r, evs, hps, by rw [hc], by rw [hc], by rw [hc]⟩, ?_⟩
  · unfold FindAllMatchings
    rw [hinit]
    rfl
  · show c0.workers.length = n
    rw [hc]
    exact List.length_replicate n _
  · intro c hr
    have hinv := (initConfig_Inv hinit).reach_inv hr
    refine ⟨hinv.deleted_popped, ?_⟩
    intro id hid
    have hidp := hinv.deleted_popped hid
    exact (hinv.ids_bounded id (List.mem_append.mpr (Or.inr hidp))).1

/-- C9.  The boolean `ProcessState` returned (held at the decrement site) is
never used: the worker's one possible step from there is the decrement, its
entire effect — back to popping, frontier, counters and log untouched — is
the same for every value of the boolean, and the very same step is taken
from the configuration in which the boolean is replaced by any other value.
A visitor therefore cannot stop the search. -/
theorem claim_C9 {ec : EngineCfg S Sol} {ops : StateOps S Sol} {i : Nat} {a : Act S}
    {c c' : Config S Sol} {r r' : Bool}
    (hpc : c.workers.get? i = some (WPc.toDecr r))
    (hs : Step ec ops i a c c') :
    a = Act.decr ∧ c'.workers.get? i = some WPc.toPop ∧
    c'.globalStateStack = c.globalStateStack ∧ c'.solCount = c.solCount ∧
    c'.solutions = c.solutions ∧ c'.poppedIds = c.poppedIds ∧
    Step ec ops i a
      { c with workers := c.workers.set i (WPc.toDecr r') } c' := by
  have hlt : i < c.workers.length := (List.get?_eq_some.mp hpc).1
  obtain ⟨ha, hc'⟩ := step_from_toDecr hs hpc
  subst ha
  subst hc'
  refine ⟨rfl, get?_set_self c.workers i _ hlt, rfl, rfl, rfl, rfl, ?_⟩
  have hstep := @Step.decr S Sol ec ops
    { c with workers := c.workers.set i (WPc.toDecr r') } i r'
    (get?_set_self c.workers i _ hlt)
  simp only [List.set_set] at hstep
  exact hstep

/-- C10.  On a goal state, the counter increment comes first in the event
order of `ProcessState` and the log append (when `storeSolutions` is on)
also precedes the visitor invocation, so no visitor result can suppress or
undo the counting or persistence of that solution; the increment happens for
every visitor and every visitor result. -/
theorem claim_C10 {ec : EngineCfg S Sol} {ops : StateOps S Sol} {s : S} {fuel : Nat}
    {r : Bool} {evs : List (Event S Sol)}
    (hg : ops.IsGoal s = true)
    (hps : ProcessState ec ops s fuel = some (r, evs)) :
    Event.incCount ∈ evs ∧
    (∀ j x rj, evs.get? j = some (Event.visitCall x rj) →
      (∃ k, k < j ∧ evs.get? k = some Event.incCount) ∧
      (ec.storeSolutions = true →
        ∃ k sol, k < j ∧ evs.get? k = some (Event.appendSol sol))) := by
  unfold ProcessState at hps
  rw [if_pos hg] at hps
  cases hps
  constructor
  · unfold goalEvents
    exact List.mem_cons_self _ _
  · intro j x rj hj
    unfold goalEvents at hj
    by_cases hst : ec.storeSolutions = true
    · rw [hst] at hj
      cases hv : ec.visit with
      | none =>
        rw [hv] at hj
        match j with
        | 0 => cases hj
        | 1 => cases hj
        | k + 2 => cases hj
      | some v =>
        rw [hv] at hj
        match j with
        | 0 => cases hj
        | 1 => cases hj
        | 2 =>
          refine ⟨⟨0, by omega, ?_⟩, fun _ => ⟨1, ops.GetCoreSet s, by omega, ?_⟩⟩
          · unfold goalEvents
            rw [hst, hv]
            rfl
          · unfold goalEvents
            rw [hst, hv]
            rfl
        | k + 3 => cases hj
    · have hst' : ec.storeSolutions = false := by
        cases hsv : ec.storeSolutions
        · rfl
        · exact absurd hsv hst
      rw [hst'] at hj
      cases hv : ec.visit with
      | none =>
        rw [hv] at hj
        match j with
        | 0 => cases hj
        | k + 1 => cases hj
      | some v =>
        rw [hv] at hj
        match j with
        | 0 => cases hj
        | 1 =>
          refine ⟨⟨0, by omega, ?_⟩, fun hcontra => absurd hcontra (by rw [hst']; simp)⟩
          unfold goalEvents
          rw [hst', hv]
          rfl
        | k + 2 => cases hj

/-!
## Concrete runs used as witnesses
-/

theorem sa0 : Step wec wops 0 Act.popFail a0 a1 :=
  Step.popFail a0 0 rfl rfl

theorem sa1 : Step wec wops 0 Act.loopExit a1 a2 :=
  Step.loopExit a1 0 rfl (by decide)

theorem terminal_a2 : Terminal a2 := by
  intro w hw
  have hwk : a2.workers = [WPc.exited] := rfl
  rw [hwk, List.mem_singleton] at hw
  exact hw

theorem deadRun_valid : ValidRun wec wops deadRun := by
  intro m
  match m with
  | 0 => exact Or.inl ⟨0, Act.popFail, sa0⟩
  | 1 => exact Or.inl ⟨0, Act.loopExit, sa1⟩
  | k + 2 => exact Or.inr ⟨terminal_a2, rfl⟩

theorem deadRun_fair : FairRun wec wops deadRun := by
  intro i hlen n
  have hl1 : (deadRun 0).workers.length = 1 := rfl
  have hi : i = 0 := by omega
  subst hi
  refine ⟨max n 2, le_max_left _ _, Or.inl ?_⟩
  have h2le : 2 ≤ max n 2 := le_max_right _ _
  have hne0 : ¬ (max n 2 = 0) := by omega
  have hne1 : ¬ (max n 2 = 1) := by omega
  show (deadRun (max n 2)).workers.get? 0 = some WPc.exited
  unfold deadRun
  rw [if_neg hne0, if_neg hne1]
  rfl

theorem sb0 : Step wec wops 0 (Act.popOk 1 1) b0 b1 :=
  Step.popOk b0 0 1 1 [] rfl rfl

theorem sb1 : Step wec wops 0 Act.branchGoal b1 b2 :=
  Step.branchGoal b1 0 1 1 rfl rfl

theorem sb2 : Step wec wops 0 Act.incCount b2 b3 :=
  Step.incCount b2 0 1 1 rfl

theorem sb3 : Step wec wops 0 Act.appendSol b3 b4 :=
  Step.appendSol b3 0 1 1 rfl

theorem sb4 : Step wec wops 0 (Act.visitRet true) b4 b5 :=
  Step.visitRet b4 0 1 1 rfl

theorem sb5 : Step wec wops 0 Act.decr b5 b6 :=
  Step.decr b5 0 true rfl

theorem sb6 : Step wec wops 0 Act.popFail b6 b7 :=
  Step.popFail b6 0 rfl rfl

theorem sb7 : Step wec wops 0 Act.loopExit b7 b8 :=
  Step.loopExit b7 0 rfl (by decide)

theorem reach_b5 : Reach wec wops b0 b5 :=
  Relation.ReflTransGen.tail (Relation.ReflTransGen.tail (Relation.ReflTransGen.tail
    (Relation.ReflTransGen.tail (Relation.ReflTransGen.tail Relation.ReflTransGen.refl
      ⟨0, Act.popOk 1 1, sb0⟩) ⟨0, Act.branchGoal, sb1⟩) ⟨0, Act.incCount, sb2⟩)
    ⟨0, Act.appendSol, sb3⟩) ⟨0, Act.visitRet true, sb4⟩

theorem reach_b8 : Reach wec wops b0 b8 :=
  Relation.ReflTransGen.tail (Relation.ReflTransGen.tail (Relation.ReflTransGen.tail
    reach_b5 ⟨0, Act.decr, sb5⟩) ⟨0, Act.popFail, sb6⟩) ⟨0, Act.loopExit, sb7⟩

theorem terminal_b8 : Terminal b8 := by
  intro w hw
  have hwk : b8.workers = [WPc.exited] := rfl
  rw [hwk, List.mem_singleton] at hw
  exact hw

theorem sp0 : Step wec wops 0 (Act.popOk 1 1) p0 p1 :=
  Step.popOk p0 0 1 1 [] rfl rfl

theorem sp1 : Step wec wops 0 Act.branchGoal p1 p2 :=
  Step.branchGoal p1 0 1 1 rfl rfl

theorem sp2 : Step wec wops 0 Act.incCount p2 p3 :=
  Step.incCount p2 0 1 1 rfl

theorem sp3 : Step wec wops 0 Act.appendSol p3 p4 :=
  Step.appendSol p3 0 1 1 rfl

theorem sp4 : Step wec wops 0 (Act.visitRet true) p4 p5 :=
  Step.visitRet p4 0 1 1 rfl

theorem sp5 : Step wec wops 0 Act.decr p5 p6 :=
  Step.decr p5 0 true rfl

theorem sp6 : Step wec wops 0 Act.popFail p6 p7 :=
  Step.popFail p6 0 rfl rfl

theorem sp7 : Step wec wops 0 Act.loopExit p7 p8 :=
  Step.loopExit p7 0 rfl (by decide)

theorem sp8 : Step wec wops 1 Act.popFail p8 p9 :=
  Step.popFail p8 1 rfl rfl

theorem sp9 : Step wec wops 1 Act.loopExit p9 p10 :=
  Step.loopExit p9 1 rfl (by decide)

theorem reach_p10 : Reach wec wops p0 p10 :=
  Relation.ReflTransGen.tail (Relation.ReflTransGen.tail (Relation.ReflTransGen.tail
    (Relation.ReflTransGen.tail (Relation.ReflTransGen.tail (Relation.ReflTransGen.tail
      (Relation.ReflTransGen.tail (Relation.ReflTransGen.tail (Relation.ReflTransGen.tail
        (Relation.ReflTransGen.tail Relation.ReflTransGen.refl
          ⟨0, Act.popOk 1 1, sp0⟩) ⟨0, Act.branchGoal, sp1⟩) ⟨0, Act.incCount, sp2⟩)
      ⟨0, Act.appendSol, sp3⟩) ⟨0, Act.visitRet true, sp4⟩) ⟨0, Act.decr, sp5⟩)
    ⟨0, Act.popFail, sp6⟩) ⟨0, Act.loopExit, sp7⟩) ⟨1, Act.popFail, sp8⟩)
    ⟨1, Act.loopExit, sp9⟩

theorem terminal_p10 : Terminal p10 := by
  intro w hw
  have hwk : p10.workers = [WPc.exited, WPc.exited] := rfl
  rw [hwk, List.mem_cons, List.mem_singleton] at hw
  rcases hw with hw | hw <;> exact hw

/-!
## Witnesses
-/

/-- Witness for C1: the dead-root scenario with one worker terminates. -/
theorem claim_C1_witness :
    ValidRun wec wops deadRun ∧ FairRun wec wops deadRun ∧
    ∃ N, Terminal (deadRun N) ∧
      FindAllMatchings wec wops 2 1 1 = some (a0, true) :=
  ⟨deadRun_valid, deadRun_fair,
    (claim_C1 wfe (by omega) (show initConfig wec wops 2 1 1 = some a0 from rfl)
      rfl deadRun_valid deadRun_fair).1⟩

/-- Witness for C2: one-worker and two-worker drained runs of the same root
agree on the final count, which is the tree's goal count. -/
theorem claim_C2_witness :
    GetSolutionsCount b8 = GetSolutionsCount p10 ∧
    b8.solCount = GW wops wfe 0 :=
  claim_C2 wfe (by omega) (by omega)
    (show initConfig wec wops 0 1 1 = some b0 from rfl)
    (show initConfig wec wops 0 2 1 = some p0 from rfl)
    reach_b8 terminal_b8 reach_p10 terminal_p10

/-- Witness for C3: the decrement step of the one-worker run. -/
theorem claim_C3_witness :
    (0 ≤ b5.activeWorkerCount) ∧
    ((Act.decr : Act Nat) = Act.decr ∧
      (∃ r, b5.workers.get? 0 = some (WPc.toDecr r)) ∧
      b6.activeWorkerCount = b5.activeWorkerCount - 1 ∧
      0 ≤ b6.activeWorkerCount) :=
  ⟨(claim_C3 (show initConfig wec wops 0 1 1 = some b0 from rfl)).1 b5 reach_b5,
   (claim_C3 (show initConfig wec wops 0 1 1 = some b0 from rfl)).2.1 b5 b6 0
     Act.decr reach_b5 sb5 (by decide)⟩

/-- Witness for C4: the pop steps of the one-worker run and uniqueness of
its dispatch history. -/
theorem claim_C4_witness :
    (b0.globalStateStack = (1, 1) :: b1.globalStateStack ∧
      b1.activeWorkerCount = b0.activeWorkerCount + 1 ∧
      b1.poppedIds = b0.poppedIds ++ [1]) ∧
    (b6.globalStateStack = [] ∧ b7.globalStateStack = [] ∧
      b7.activeWorkerCount = b6.activeWorkerCount ∧
      b7.workers.get? 0 = some WPc.gotNone) ∧
    b8.poppedIds.Nodup :=
  ⟨(claim_C4 (show initConfig wec wops 0 1 1 = some b0 from rfl)).2.1 b0 b1 0 1 1 sb0,
   (claim_C4 (show initConfig wec wops 0 1 1 = some b0 from rfl)).2.2.1 b6 b7 0 sb6,
   (claim_C4 (show initConfig wec wops 0 1 1 = some b0 from rfl)).2.2.2.2.2 b8
     reach_b8⟩

/-- Witness for C5: `ProcessState` on the concrete goal state `1`. -/
theorem claim_C5_witness :
    incsOf ([Event.incCount, Event.appendSol 1] : List (Event Nat Nat)) = 1 ∧
    pushesOf ([Event.incCount, Event.appendSol 1] : List (Event Nat Nat)) = [] ∧
    solsOf ([Event.incCount, Event.appendSol 1] : List (Event Nat Nat)) =
      (if wec.storeSolutions then [wops.GetCoreSet 1] else []) ∧
    visitsOf ([Event.incCount, Event.appendSol 1] : List (Event Nat Nat)) =
      (match wec.visit with
       | some v => [(1, v 1)]
       | none => []) ∧
    true = (match wec.visit with
            | some v => v 1
            | none => true) :=
  claim_C5 (show wops.IsGoal 1 = true from rfl)
    (show ProcessState wec wops 1 1 =
      some (true, [Event.incCount, Event.appendSol 1]) from rfl)

/-- Witness for C6: `ProcessState` on the concrete live state `0`. -/
theorem claim_C6_witness :
    false = false ∧
    incsOf ([Event.push 1] : List (Event Nat Nat)) = 0 ∧
    solsOf ([Event.push 1] : List (Event Nat Nat)) = [] ∧
    visitsOf ([Event.push 1] : List (Event Nat Nat)) = [] ∧
    (wops.IsDead 0 = true → ([Event.push 1] : List (Event Nat Nat)) = []) ∧
    (wops.IsDead 0 = false →
      ∃ ps, cursorList wops 0 1 startPair = some ps ∧
        pushesOf ([Event.push 1] : List (Event Nat Nat)) =
          (ps.filter (fun q => wops.IsFeasiblePair 0 q)).map
            (fun q => wops.AddPair 0 q)) :=
  claim_C6 (show wops.IsGoal 0 = false from rfl)
    (show ProcessState wec wops 0 1 = some (false, [Event.push 1]) from rfl)

/-- Witness for C7: in the drained one-worker run the log length equals the
exact increment count and (being below `2^32`) the wrapped counter read. -/
theorem claim_C7_witness :
    b8.solutions.length = b8.solCount ∧
    b8.solutions.length % UINT32_MOD = GetSolutionsCount b8 ∧
    (b8.solutions.length < UINT32_MOD →
      b8.solutions.length = GetSolutionsCount b8) :=
  claim_C7 (show wec.storeSolutions = true from rfl)
    (show initConfig wec wops 0 1 1 = some b0 from rfl) reach_b8 terminal_b8

/-- Witness for C8: start-up of the one-worker run. -/
theorem claim_C8_witness :
    FindAllMatchings wec wops 0 1 1 = some (b0, true) ∧
    b0.workers = List.replicate 1 WPc.toPop ∧
    GetThreadCount b0 = 1 ∧
    b0.activeWorkerCount = 0 ∧ b0.poppedIds = [] ∧ b0.deletedIds = [] ∧
    (∃ r evs, ProcessState wec wops 0 1 = some (r, evs) ∧
      b0.globalStateStack =
        ((List.range' 1 (pushesOf evs).length).zip (pushesOf evs)).reverse ∧
      b0.solCount = incsOf evs ∧ b0.solutions = solsOf evs) ∧
    (∀ c, Reach wec wops b0 c →
      c.deletedIds ⊆ c.poppedIds ∧ ∀ id ∈ c.deletedIds, 1 ≤ id) :=
  claim_C8 (show initConfig wec wops 0 1 1 = some b0 from rfl)

/-- Witness for C9: replacing the stored return value `true` by `false` at
the decrement site yields the very same step to the very same successor. -/
theorem claim_C9_witness :
    (Act.decr : Act Nat) = Act.decr ∧ b6.workers.get? 0 = some WPc.toPop ∧
    b6.globalStateStack = b5.globalStateStack ∧ b6.solCount = b5.solCount ∧
    b6.solutions = b5.solutions ∧ b6.poppedIds = b5.poppedIds ∧
    Step wec wops 0 Act.decr
      { b5 with workers := b5.workers.set 0 (WPc.toDecr false) } b6 :=
  claim_C9 (show b5.workers.get? 0 = some (WPc.toDecr true) from rfl) sb5

/-- Witness for C10: with a visitor that returns `false`, the increment and
the append still precede the visitor call. -/
theorem claim_C10_witness :
    Event.incCount ∈
      ([Event.incCount, Event.appendSol 1, Event.visitCall 1 false] :
        List (Event Nat Nat)) ∧
    ((∃ k, k < 2 ∧
        ([Event.incCount, Event.appendSol 1, Event.visitCall 1 false] :
          List (Event Nat Nat)).get? k = some Event.incCount) ∧
      (wecV.storeSolutions = true →
        ∃ k sol, k < 2 ∧
          ([Event.incCount, Event.appendSol 1, Event.visitCall 1 false] :
            List (Event Nat Nat)).get? k = some (Event.appendSol sol))) :=
  have h := claim_C10 (show wops.IsGoal 1 = true from rfl)
    (show ProcessState wecV wops 1 1 =
      some (false, [Event.incCount, Event.appendSol 1, Event.visitCall 1 false])
      from rfl)
  ⟨h.1, h.2 2 1 false rfl⟩

end VFLib
